import Mathlib

/-
Verification of the docnametypo analyzer (Go) against its specification.

The development shallowly embeds the decision engine of the analyzer:
token extraction from doc-comment blocks (analyzer/comments.go), the
camel-case heuristics (analyzer/camel.go), the narrative filters, the
distance gate, and the per-record engine (functions run and checkSymbol);
the last three live in further analyzer package files of the repository.

Modelling conventions:
- Go strings are modelled as List Char.  The Go code indexes bytes; every
  operation the claims exercise manipulates ASCII text, where byte offsets
  and character offsets coincide, so a character plays the role of a byte.
- Go unicode class predicates (IsUpper, IsLower, IsDigit, IsLetter) are
  modelled by their ASCII restrictions, which is what the inputs in the
  claims contain; strings.ToLower is modelled by Char.toLower, which is
  the same ASCII mapping (plus 32 on A-Z).
- Package-level flag variables (maxDistFlag and friends) are threaded
  through an explicit Config value.
- Functions that in Go loop with an index are modelled by structurally
  recursive functions on a fuel argument that starts at least as large as
  the number of loop iterations, so that all definitions compute by
  kernel reduction.
-/

/-- Character class of Go identifier characters, from leadingIdentRun in
analyzer/comments.go: ASCII letters, digits and underscore. -/
def isIdentChar (c : Char) : Bool :=
  decide (('a' ≤ c ∧ c ≤ 'z') ∨ ('A' ≤ c ∧ c ≤ 'Z') ∨ ('0' ≤ c ∧ c ≤ '9') ∨ c = '_')

/-- Space characters recognized by the word scanner in identifierFromLine
(space and tab). -/
def isDocSpace (c : Char) : Bool :=
  decide (c = ' ' ∨ c = '\t')

/-- Characters of the cutset used by strings.Fields, Go unicode.IsSpace
restricted to ASCII. -/
def isGoSpace (c : Char) : Bool :=
  decide (c = ' ' ∨ c = '\t' ∨ c = '\n' ∨ c = '\r' ∨ c = '\x0b' ∨ c = '\x0c')

/-- Punctuation that terminates identifier scanning, from isWordBoundary in
analyzer/comments.go. -/
def isWordBoundary (c : Char) : Bool :=
  decide (c = ',' ∨ c = '.' ∨ c = ';' ∨ c = ':' ∨ c = '(' ∨ c = ')' ∨ c = '[' ∨ c = ']' ∨
    c = '{' ∨ c = '}' ∨ c = '\t' ∨ c = ' ' ∨ c = '\r')

/-- Lowercasing of a Go string restricted to ASCII, strings.ToLower. -/
def toLowerStr (s : List Char) : List Char :=
  s.map Char.toLower

/-- ASCII uppercase test, Go unicode.IsUpper restricted to ASCII. -/
def isUpperGo (c : Char) : Bool :=
  decide ('A' ≤ c ∧ c ≤ 'Z')

/-- ASCII lowercase test, Go unicode.IsLower restricted to ASCII. -/
def isLowerGo (c : Char) : Bool :=
  decide ('a' ≤ c ∧ c ≤ 'z')

/-- ASCII digit test, Go unicode.IsDigit restricted to ASCII. -/
def isDigitGo (c : Char) : Bool :=
  decide ('0' ≤ c ∧ c ≤ '9')

/-- ASCII letter test, Go unicode.IsLetter restricted to ASCII. -/
def isLetterGo (c : Char) : Bool :=
  isLowerGo c || isUpperGo c

/-- Absolute difference of two lengths, the abs helper of analyzer.go
applied to an int subtraction of two Nat lengths. -/
def natAbsDiff (a b : Nat) : Nat :=
  if a ≤ b then b - a else a - b

/-- Constant minDocTokenLen from analyzer/flags.go. -/
def minDocTokenLen : Nat := 3

/-- Constant maxChunkDiffSize from analyzer/flags.go. -/
def maxChunkDiffSize : Nat := 6

/-- Length of the longest common prefix, commonPrefixLength of the
analyzer package (byte for byte). -/
def commonPrefixLength : List Char → List Char → Nat
  | a :: as, b :: bs => if a = b then commonPrefixLength as bs + 1 else 0
  | _, _ => 0

/-- Length of the longest common suffix, commonSuffixLength of the
analyzer package, which walks both strings from their last bytes. -/
def commonSuffixLength (a b : List Char) : Nat :=
  commonPrefixLength a.reverse b.reverse

/-- Damerau-Levenshtein distance with fuel, implementing the optimal string
alignment recurrence of damerauLevenshtein of the analyzer package (unit
cost insert, delete, substitute and adjacent transposition over scalar
values).  The Go code fills the textbook DP table over prefixes; this
definition evaluates the same recurrence over suffixes, which yields the
same distance since every alignment read in reverse is an alignment of the
reversed strings with the same cost.  The fuel only needs to exceed the sum
of the lengths, which every entry point guarantees. -/
def dlFuel : Nat → List Char → List Char → Nat
  | 0, a, b => a.length + b.length
  | _ + 1, [], b => b.length
  | _ + 1, a, [] => a.length
  | fuel + 1, x :: xs, y :: ys =>
    let cost := if x = y then 0 else 1
    let v := min (min (dlFuel fuel xs (y :: ys) + 1) (dlFuel fuel (x :: xs) ys + 1))
                 (dlFuel fuel xs ys + cost)
    match xs, ys with
    | x2 :: xs2, y2 :: ys2 =>
      if x = y2 ∧ x2 = y then min v (dlFuel fuel xs2 ys2 + 1) else v
    | _, _ => v

/-- Damerau-Levenshtein distance, damerauLevenshtein of the analyzer
package. -/
def damerauLevenshtein (a b : List Char) : Nat :=
  dlFuel (a.length + b.length) a b

/-- Cutset of the first phase of trimDocLine: leading whitespace. -/
def isTrim1 (c : Char) : Bool :=
  decide (c = ' ' ∨ c = '\t' ∨ c = '\r')

/-- Cutset of the second phase of trimDocLine: comment markers. -/
def isTrim2 (c : Char) : Bool :=
  decide (c = '*' ∨ c = ' ' ∨ c = '\t')

/-- Removal of leading comment markers and trailing whitespace, trimDocLine in
analyzer/comments.go; returns the trimmed line and the number of leading
bytes consumed. -/
def trimDocLine (line : List Char) : List Char × Nat :=
  let l1 := line.dropWhile isTrim1
  let l2 := l1.dropWhile isTrim2
  let l3 := l2.dropWhile isDocSpace
  (l3.rdropWhile isTrim1, line.length - l3.length)

/-- Removal of the block-comment closer, the TrimSuffix step of firstDocLine. -/
def cutBlockCloser (l : List Char) : List Char :=
  match l.reverse with
  | '/' :: '*' :: r => r.reverse
  | _ => l

/-- Line loop of firstDocLine in analyzer/comments.go: walk newline-separated
lines, keeping a running byte offset, and return the first line that is
non-empty after trimming together with the offset of its first kept byte. -/
def firstDocLineLoop : Nat → List Char → Nat → Option (List Char × Nat)
  | 0, _, _ => none
  | fuel + 1, text, curOff =>
    if text = [] then none
    else
      let before := text.takeWhile (fun c => c ≠ '\n')
      let advance := if before.length < text.length then before.length + 1 else before.length
      let rest := text.drop advance
      if (trimDocLine before).1 = [] then firstDocLineLoop fuel rest (curOff + advance)
      else some ((trimDocLine before).1, curOff + (trimDocLine before).2)

/-- First non-empty line of the raw comment text, firstDocLine in
analyzer/comments.go.  A leading line marker or block opener is stripped
first (and for a block comment the trailing closer). -/
def firstDocLine (raw : List Char) : Option (List Char × Nat) :=
  match raw with
  | '/' :: '/' :: rest => firstDocLineLoop (rest.length + 1) rest 2
  | '/' :: '*' :: rest => firstDocLineLoop (rest.length + 1) (cutBlockCloser rest) 2
  | [] => none
  | _ => firstDocLineLoop (raw.length + 1) raw 0

/-- Punctuation stripping around a word, trimWord in analyzer/comments.go;
returns the stripped word and the number of bytes removed on the left. -/
def trimWord (word : List Char) : List Char × Nat :=
  let l := word.dropWhile isWordBoundary
  (l.rdropWhile isWordBoundary, word.length - l.length)

/-- Removal of one trailing colon, the TrimSuffix step of identifierFromLine. -/
def trimColonSuffix (w : List Char) : List Char :=
  match w.reverse with
  | ':' :: r => r.reverse
  | _ => w

/-- Skippable doc labels, isSkippableLabel in analyzer/comments.go. -/
def isSkippableLabel (w : List Char) : Bool :=
  decide (w = "deprecated".data ∨ w = "todo".data ∨ w = "note".data ∨ w = "fixme".data ∨
    w = "nolint".data ∨ w = "lint".data ∨ w = "warning".data)

/-- Leading pointer markers removal, trimPointerPrefixes in
analyzer/comments.go. -/
def trimPointerPrefixes (s : List Char) : List Char × Nat :=
  let t := s.dropWhile (fun c => decide (c = '*' ∨ c = '&'))
  (t, s.length - t.length)

/-- Maximal run of identifier characters at the head of a string,
leadingIdentRun in analyzer/comments.go, with its byte length.  The Go loop
breaks on an explicit separator list and on any other non-identifier rune
and accumulates identifier runes; every separator is a non-identifier
character, so the loop computes exactly the maximal identifier run, and the
byte offset it returns equals the run length because identifier characters
are single-byte. -/
def leadingIdentRun (s : List Char) : List Char × Nat :=
  let r := s.takeWhile isIdentChar
  (r, r.length)

/-- Dot-separated parts of a word with the byte offset of each part, the
strings.Split plus offsets computation of extractIdentifierToken. -/
def splitOnDotFrom : List Char → Nat → List (List Char × Nat)
  | [], start => [([], start)]
  | c :: rest, start =>
    if c = '.' then ([], start) :: splitOnDotFrom rest (start + 1)
    else
      match splitOnDotFrom rest (start + 1) with
      | [] => [([c], start)]
      | (p, _) :: ps => (c :: p, start) :: ps

/-- Right-to-left search of extractIdentifierToken: on the reversed part
list, return the identifier run of the first part whose pointer-stripped
text starts with an identifier character. -/
def findIdentRev : List (List Char × Nat) → Option (List Char × Nat)
  | [] => none
  | (p, off) :: rest =>
    if (leadingIdentRun (trimPointerPrefixes p).1).1 = [] then findIdentRev rest
    else some ((leadingIdentRun (trimPointerPrefixes p).1).1, off + (trimPointerPrefixes p).2)

/-- Identifier component of a word, extractIdentifierToken in
analyzer/comments.go: for a word containing a dot, the parts are scanned
from the last to the first; otherwise (or when no part matches) the word
itself is pointer-stripped and its leading identifier run taken. -/
def extractIdentifierToken (word : List Char) : Option (List Char × Nat) :=
  if word = [] then none
  else
    let fallback :=
      if (leadingIdentRun (trimPointerPrefixes word).1).1 = [] then none
      else some ((leadingIdentRun (trimPointerPrefixes word).1).1, (trimPointerPrefixes word).2)
    if word.contains '.' then
      match findIdentRev (splitOnDotFrom word 0).reverse with
      | some r => some r
      | none => fallback
    else fallback

/-- Word loop of identifierFromLine in analyzer/comments.go: scan
whitespace-separated words, skip fully-punctuation words and skippable
labels, and return the identifier token of the first remaining word with
its byte offset in the line (or nothing if that word has no identifier). -/
def identFromWords : Nat → List Char → Nat → Option (List Char × Nat)
  | 0, _, _ => none
  | fuel + 1, line, pos =>
    match line with
    | [] => none
    | c :: rest =>
      if isDocSpace c then identFromWords fuel rest (pos + 1)
      else
        let word := (c :: rest).takeWhile (fun x => !isDocSpace x)
        let rest2 := (c :: rest).dropWhile (fun x => !isDocSpace x)
        let trimmed := (trimWord word).1
        if trimmed = [] then identFromWords fuel rest2 (pos + word.length)
        else if isSkippableLabel (toLowerStr (trimColonSuffix trimmed)) then
          identFromWords fuel rest2 (pos + word.length)
        else
          match extractIdentifierToken trimmed with
          | some (id, rel) => some (id, pos + (trimWord word).2 + rel)
          | none => none

/-- First identifier token of a line, identifierFromLine in
analyzer/comments.go. -/
def identifierFromLine (line : List Char) : Option (List Char × Nat) :=
  identFromWords (line.length + 1) line 0

/-- Token extraction from a raw doc block, firstIdentifierLike in
analyzer/comments.go: the token, its byte offset relative to the block
start (the Go code adds the opaque Slash origin, which the model leaves
out), and the trimmed first line.  The Go function returns an empty token
both when there is no usable line and when the line has no identifier; the
engine treats the two identically, so both collapse to none. -/
def firstIdentifierLike (raw : List Char) : Option (List Char × Nat × List Char) :=
  match firstDocLine raw with
  | none => none
  | some (line, lineOffset) =>
    match identifierFromLine line with
    | none => none
    | some (id, rel) => some (id, lineOffset + rel, line)

example : firstIdentifierLike "// fooServer.serveHTTP handles HTTP requests.".data =
    some ("serveHTTP".data, 13, "fooServer.serveHTTP handles HTTP requests.".data) := by decide

example : firstIdentifierLike "// note: helper for tests".data =
    some ("helper".data, 9, "note: helper for tests".data) := by decide

example : firstIdentifierLike "// serveHtpp handles websocket traffic.".data =
    some ("serveHtpp".data, 3, "serveHtpp handles websocket traffic.".data) := by decide

/-- Camel-case boundary test before index idx, camelWordBoundary in
analyzer/camel.go.  Call sites guarantee 1 ≤ idx < length, so the out of
bounds arms are never taken. -/
def camelWordBoundary (runes : List Char) (idx : Nat) : Bool :=
  match runes.get? (idx - 1), runes.get? idx with
  | some prev, some curr =>
    if isDigitGo prev != isDigitGo curr then true
    else if isLetterGo prev != isLetterGo curr then true
    else if isLowerGo prev && isUpperGo curr then true
    else if isUpperGo prev && isUpperGo curr then
      match runes.get? (idx + 1) with
      | some nxt => isLowerGo nxt
      | none => false
    else false
  | _, _ => false

/-- Index loop of splitCamelWords: the chunk in progress starts at start,
the scan position is i, and a boundary at i emits the lowercased chunk and
restarts at i.  The fuel starts at the rune count, one more than the number
of loop iterations. -/
def splitCamelAux (runes : List Char) : Nat → Nat → Nat → List (List Char)
  | 0, start, _ =>
    if start < runes.length then [toLowerStr (runes.drop start)] else []
  | fuel + 1, start, i =>
    if i < runes.length then
      if camelWordBoundary runes i then
        let w := toLowerStr ((runes.drop start).take (i - start))
        if w = [] then splitCamelAux runes fuel i (i + 1)
        else w :: splitCamelAux runes fuel i (i + 1)
      else splitCamelAux runes fuel start (i + 1)
    else if start < runes.length then [toLowerStr (runes.drop start)] else []

/-- Chunk splitting of a camelCase or snake case identifier, splitCamelWords
in analyzer/camel.go: underscores are removed, then boundaries are inserted
and every chunk lowercased. -/
def splitCamelWords (s : List Char) : List (List Char) :=
  let r := s.filter (fun c => c != '_')
  if r = [] then [] else splitCamelAux r r.length 0 1

/-- Closeness of two chunk words, wordClose in analyzer/camel.go.  The Go
code reads the package flag maxDistFlag; the model passes it explicitly. -/
def wordClose (maxDist : Nat) (a b : List Char) : Bool :=
  if a = [] ∨ b = [] then false
  else
    let al := toLowerStr a
    let bl := toLowerStr b
    if al = bl then true
    else
      let dist := damerauLevenshtein al bl
      if maxDist + 1 < dist then false
      else
        let minLen := min al.length bl.length
        if minLen ≤ 1 then false
        else
          let threshold := if minLen - 2 < 2 then minLen else minLen - 2
          decide (threshold ≤ commonPrefixLength al bl ∨ threshold ≤ commonSuffixLength al bl)

/-- Mismatch loop of hasSimilarCamelWord over the zipped chunk lists. -/
def similarLoop (maxDist : Nat) : List (List Char × List Char) → Nat → Bool
  | [], mismatches => decide (0 < mismatches)
  | (a, b) :: rest, mismatches =>
    if a = b then similarLoop maxDist rest mismatches
    else if !wordClose maxDist a b then false
    else if 1 < mismatches + 1 then false
    else similarLoop maxDist rest (mismatches + 1)

/-- Single close chunk typo, hasSimilarCamelWord in analyzer/camel.go. -/
def hasSimilarCamelWord (maxDist : Nat) (docToken symbol : List Char) : Bool :=
  let docWords := splitCamelWords docToken
  let symWords := splitCamelWords symbol
  if docWords = [] ∨ docWords.length ≠ symWords.length then false
  else similarLoop maxDist (docWords.zip symWords) 0

/-- Swapped chunk detection, isCamelSwapVariant in analyzer/camel.go: the Go
loop records at most two mismatching indices and fails on a third, which is
the same as filtering the zipped lists down to the mismatching pairs and
requiring exactly two, swapped. -/
def isCamelSwapVariant (docToken symbol : List Char) : Bool :=
  let docWords := splitCamelWords docToken
  let symWords := splitCamelWords symbol
  if docWords.length ≠ symWords.length ∨ docWords.length < 2 then false
  else
    match (docWords.zip symWords).filter (fun p => p.1 != p.2) with
    | [(a, b), (c, d)] => a == d && b == c
    | _ => false

/-- Counting loop of hasCamelChunkReplacement; none models the early false
return when the mismatch budget is exceeded. -/
def replLoop (maxMismatch : Nat) : List (List Char × List Char) → Nat → Nat → Option (Nat × Nat)
  | [], misCount, matCount => some (misCount, matCount)
  | (a, b) :: rest, misCount, matCount =>
    if a = b then replLoop maxMismatch rest misCount (matCount + 1)
    else if maxMismatch < misCount + 1 then none
    else replLoop maxMismatch rest (misCount + 1) matCount

/-- Bounded chunk replacement, hasCamelChunkReplacement in analyzer/camel.go.
The bound is an int in Go with non-positive values disabling the check; the
Nat model makes that the zero case. -/
def hasCamelChunkReplacement (docToken symbol : List Char) (maxMismatch : Nat) : Bool :=
  if maxMismatch = 0 then false
  else
    let docWords := splitCamelWords docToken
    let symWords := splitCamelWords symbol
    if docWords = [] ∨ docWords.length ≠ symWords.length then false
    else if docWords.length < 2 then false
    else
      match replLoop maxMismatch (docWords.zip symWords) 0 0 with
      | none => false
      | some (misCount, matCount) =>
        if misCount = 0 then false
        else decide (docWords.length - maxMismatch ≤ matCount ∧ 0 < matCount)

/-- Two-pointer loop of camelSubsequence; the skip budget counts positions
of the longer list passed over without a match. -/
def camelSubsequenceLoop (maxSkips : Nat) : List (List Char) → List (List Char) → Nat → Bool
  | shorter, [], _ => decide (shorter = [])
  | [], _ :: _, _ => true
  | x :: xs, y :: ys, skips =>
    if x = y then camelSubsequenceLoop maxSkips xs ys skips
    else if maxSkips < skips + 1 then false
    else camelSubsequenceLoop maxSkips (x :: xs) ys (skips + 1)

/-- Ordered subsequence test on chunk lists, camelSubsequence in
analyzer/camel.go. -/
def camelSubsequence (shorter longer : List (List Char)) (maxSkips : Nat) : Bool :=
  if shorter = [] ∨ longer = [] then false
  else camelSubsequenceLoop maxSkips shorter longer 0

/-- Bounded chunk insertion or removal, hasCamelChunkInsertionOrRemoval in
analyzer/camel.go. -/
def hasCamelChunkInsertionOrRemoval (docToken symbol : List Char) (maxChunkDiff : Nat) : Bool :=
  if maxChunkDiff = 0 then false
  else
    let docWords := splitCamelWords docToken
    let symWords := splitCamelWords symbol
    if docWords = [] ∨ symWords = [] then false
    else
      let diff := natAbsDiff docWords.length symWords.length
      if diff = 0 ∨ maxChunkDiff < diff then false
      else if symWords.length < docWords.length then camelSubsequence symWords docWords maxChunkDiff
      else camelSubsequence docWords symWords maxChunkDiff

/-- Single-window search of hasSmallChunkDifference once the first string is
known to be the longer one: slide the insertion point across the longer
string and check that the remainder splits into a prefix and a suffix of
the shorter. -/
def smallChunkCore (a b : List Char) (maxChunk : Nat) : Bool :=
  let diff := a.length - b.length
  if maxChunk < diff then false
  else (List.range (a.length - diff + 1)).any
    (fun i => (a.take i).isPrefixOf b && (a.drop (i + diff)).isSuffixOf b)

/-- Contiguous insertion window, hasSmallChunkDifference in
analyzer/camel.go. -/
def hasSmallChunkDifference (a b : List Char) (maxChunk : Nat) : Bool :=
  if maxChunk = 0 then false
  else if a.length = b.length then false
  else if a.length < b.length then smallChunkCore b a maxChunk
  else smallChunkCore a b maxChunk

example : splitCamelWords "getPodIPs".data =
    ["get".data, "pod".data, "i".data, "ps".data] := by decide
example : splitCamelWords "HTTPServer".data = ["http".data, "server".data] := by decide
example : splitCamelWords "snake_case2x".data = ["snakecase".data, "2".data, "x".data] := by decide
example : isCamelSwapVariant "getPodsReady".data "getReadyPods".data = true := by decide
example : isCamelSwapVariant "HTTPServerReady".data "HTTPReadyServer".data = true := by decide
example : isCamelSwapVariant "getPodIPs".data "getPodIPs".data = false := by decide
example : hasCamelChunkReplacement "processCIDRs".data "validateCIDRs".data 1 = true := by decide
example : hasCamelChunkReplacement "processCIDRs".data "validateFooCIDRs".data 1 = false := by
  decide
example : hasCamelChunkReplacement "oneWord".data "oneWord".data 1 = false := by decide
example : hasCamelChunkInsertionOrRemoval "handleVolume".data "handleEphemeralVolume".data 2 =
    true := by decide
example : hasCamelChunkInsertionOrRemoval "syncHandler".data "sync".data 2 = true := by decide
example : hasCamelChunkInsertionOrRemoval "syncHandler".data "sync".data 0 = false := by decide
example : hasCamelChunkInsertionOrRemoval "UIDTracker".data "UIDEventTracker".data 2 = true := by
  decide

/-- Cutset of stripWordToken in the narrative filters file. -/
def isStripTokenChar (c : Char) : Bool :=
  decide (c = ' ' ∨ c = '\t' ∨ c = ':' ∨ c = '.' ∨ c = ',' ∨ c = ';' ∨ c = '\r' ∨ c = '\n' ∨
    c = '-' ∨ c = '*')

/-- Punctuation removal at both ends of a word, stripWordToken. -/
def stripWordToken (w : List Char) : List Char :=
  (w.dropWhile isStripTokenChar).rdropWhile isStripTokenChar

/-- Whitespace splitting of strings.Fields: maximal runs of non-space
characters, empty fragments dropped.  One fuel unit per field suffices
because every iteration consumes at least one character. -/
def fieldsAux : Nat → List Char → List (List Char)
  | 0, _ => []
  | fuel + 1, l =>
    let l1 := l.dropWhile isGoSpace
    if l1 = [] then []
    else l1.takeWhile (fun c => !isGoSpace c) ::
      fieldsAux fuel (l1.dropWhile (fun c => !isGoSpace c))

/-- Fields of a line, strings.Fields. -/
def fieldsOf (l : List Char) : List (List Char) :=
  fieldsAux l.length l

/-- Case-insensitive equality, strings.EqualFold restricted to ASCII. -/
def equalFold (a b : List Char) : Bool :=
  toLowerStr a == toLowerStr b

/-- Second words accepted by the section-header filter. -/
def sectionHeaderSecondWords : List (List Char) :=
  ["helper".data, "helpers".data, "section".data, "sections".data, "overview".data,
    "summary".data]

/-- Second words accepted by the narrative-sentence filter. -/
def narrativeSecondWords : List (List Char) :=
  ["that".data, "the".data, "a".data, "an".data, "this".data, "these".data, "those".data,
    "whether".data, "if".data]

/-- Heading detection, isSectionHeader in the narrative filters file. -/
def isSectionHeader (firstTok line : List Char) : Bool :=
  if firstTok = [] ∨ line = [] then false
  else
    match fieldsOf line with
    | f0 :: f1 :: _ =>
      if !equalFold firstTok (stripWordToken f0) then false
      else
        let second := toLowerStr (stripWordToken f1)
        if second = [] then false
        else sectionHeaderSecondWords.contains second
    | _ => false

/-- Simple plain word test, looksLikeSimpleWord: all letters, and every
character after the first lowercase. -/
def looksLikeSimpleWord (word : List Char) : Bool :=
  match word with
  | [] => false
  | c :: rest =>
    if !(c :: rest).all isLetterGo then false
    else if rest = [] then true
    else if toLowerStr rest != rest then false
    else isLowerGo c || isUpperGo c

/-- Natural-language sentence detection, isNarrativeSentenceIntro. -/
def isNarrativeSentenceIntro (firstTok line : List Char) : Bool :=
  if !looksLikeSimpleWord firstTok ∨ line = [] then false
  else
    match fieldsOf line with
    | f0 :: f1 :: _ =>
      if !equalFold firstTok (stripWordToken f0) then false
      else
        let second := toLowerStr (stripWordToken f1)
        if second = [] then false
        else narrativeSecondWords.contains second
    | _ => false

/-- Wildcard detection, containsWildcardToken. -/
def containsWildcardToken (tok line : List Char) : Bool :=
  if tok.any (fun c => decide (c = '*' ∨ c = '?' ∨ c = '[' ∨ c = ']')) then true
  else if tok = [] ∨ line = [] then false
  else
    let lowerLine := toLowerStr line
    let lowerTok := toLowerStr tok
    if lowerTok.isPrefixOf lowerLine && decide (lowerTok.length < lowerLine.length) then
      lowerLine.get? lowerTok.length == some '*'
    else false

/-- Interior capital detection, hasCamelCaseInterior. -/
def hasCamelCaseInterior (name : List Char) : Bool :=
  match name with
  | [] => false
  | _ :: rest => rest.any isUpperGo

/-- Dotted reference detection, docFirstWordHasDot of the narrative filters
file that accompanies the current engine: the first field contains a dot
and the text before the first dot is empty or entirely lowercase. -/
def docFirstWordHasDot (line : List Char) : Bool :=
  match fieldsOf line with
  | [] => false
  | word :: _ =>
    let pre := word.takeWhile (fun c => c ≠ '.')
    if pre.length = word.length then false
    else if pre = [] then true
    else toLowerStr pre == pre

/-- Verb form detection, isNarrativeVerbForm: the lowercased word minus a
trailing s is a non-empty leading part of the lowercased symbol. -/
def isNarrativeVerbForm (word funcName : List Char) : Bool :=
  if word.length < 2 then false
  else
    match (toLowerStr word).reverse with
    | 's' :: r =>
      let stem := r.reverse
      if stem = [] then false
      else stem.isPrefixOf (toLowerStr funcName)
    | _ => false

/-- Overlap requirement on a distance match, passesDistanceGate in the
distance file of the engine.  The Go distance argument is an int and the
gate rejects non-positive values; in the Nat model that is the zero case. -/
def passesDistanceGate (doc name : List Char) (dist : Nat) : Bool :=
  if dist = 0 then false
  else
    let docLen := doc.length
    let nameLen := name.length
    if docLen < minDocTokenLen + dist ∨ nameLen < minDocTokenLen then false
    else
      let sharedRaw := commonPrefixLength doc name + commonSuffixLength doc name
      let shared := if docLen < sharedRaw then docLen else sharedRaw
      let required := if docLen - dist < minDocTokenLen then minDocTokenLen else docLen - dist
      if required ≤ shared then true
      else decide (2 * minDocTokenLen ≤ docLen ∧ docLen ≤ 2 * shared ∧ docLen - shared ≤ dist)

example : passesDistanceGate "validateAllowedTopology".data "validateAllowedTopologies".data 2 =
    true := by decide

example : passesDistanceGate "validateAllowedTopology".data "Foo".data 2 = false := by decide

/-- Resolved configuration of the analyzer: the package flag variables plus
the derived matchConfig (allowedLeadingWords already lowercased by
buildAllowedLeadingWords, allowedPrefixes as split by splitCSV). -/
structure Config where
  maxDist : Nat
  includeUnexported : Bool
  includeExported : Bool
  includeTypes : Bool
  includeGenerated : Bool
  includeInterfaceMethods : Bool
  allowedLeadingWords : List (List Char)
  allowedPrefixes : List (List Char)
  skipPlainWordCamel : Bool
  maxCamelChunkInsert : Nat
  maxCamelChunkReplace : Nat

/-- Narrative word list membership, isAllowedLeadingWord of matchConfig. -/
def isAllowedLeadingWord (cfg : Config) (word : List Char) : Bool :=
  if word = [] ∨ cfg.allowedLeadingWords = [] then false
  else cfg.allowedLeadingWords.contains (toLowerStr word)

/-- Symbol alias test, matchesAllowedPrefixVariant of matchConfig: some
configured leading part of the symbol, case-insensitively present, leaves a
remainder that equals the doc token case-insensitively. -/
def matchesAllowedPrefixVariant (cfg : Config) (docToken symbol : List Char) : Bool :=
  if cfg.allowedPrefixes = [] then false
  else
    let symbolLower := toLowerStr symbol
    cfg.allowedPrefixes.any (fun rawPre =>
      let p := (rawPre.dropWhile isGoSpace).rdropWhile isGoSpace
      if p = [] ∨ symbol.length ≤ p.length then false
      else if !(toLowerStr p).isPrefixOf symbolLower then false
      else
        let trimmed := symbol.drop p.length
        !trimmed.isEmpty && equalFold docToken trimmed)

/-- Kind value passed to checkSymbol. -/
inductive SymbolKind where
  | kindFunc
  | kindType
deriving DecidableEq

/-- Kind of a declaration as the run function sees it. -/
inductive DeclKind where
  | funcDecl
  | typeDecl
  | ifaceMethodDecl
deriving DecidableEq

/-- Input record of the engine: one declaration with its doc block (raw text
of the first comment of the group, none when the group is absent), plus the
flags the run loop consults.  The declaration position is opaque. -/
structure DeclarationRecord where
  name : List Char
  exported : Bool
  kind : DeclKind
  doc : Option (List Char)
  generated : Bool
  pos : Nat

/-- Replacement edit of a diagnostic, the single TextEdit of the
SuggestedFix: a byte range relative to the doc block start and the new
text. -/
structure SuggestedReplacement where
  start : Nat
  stop : Nat
  text : List Char
deriving DecidableEq

/-- Diagnostic produced by checkSymbol. -/
structure Diagnostic where
  pos : Nat
  message : List Char
  fix : Option SuggestedReplacement
deriving DecidableEq

/-- Exact diagnostic message of checkSymbol. -/
def diagnosticMessage (tok name : List Char) : List Char :=
  "doc comment starts with ".data ++ ['\''] ++ tok ++ ['\''] ++
    " but symbol is ".data ++ ['\''] ++ name ++ ['\''] ++
    " (possible typo or old name)".data

/-- Ordered narrative filter battery of checkSymbol.  In the Go code each
filter is a separate early return; since every one of them returns without
a diagnostic, the sequence collapses to this disjunction. -/
def suppressedByFilters (cfg : Config) (tok line name : List Char) (kind : SymbolKind) : Bool :=
  docFirstWordHasDot line ||
  isAllowedLeadingWord cfg tok ||
  matchesAllowedPrefixVariant cfg tok name ||
  isSectionHeader tok line ||
  isNarrativeSentenceIntro tok line ||
  containsWildcardToken tok line ||
  (decide (kind = SymbolKind.kindFunc) && isNarrativeVerbForm tok name) ||
  (cfg.skipPlainWordCamel && looksLikeSimpleWord tok && hasCamelCaseInterior name)

/-- Length window of the edit-distance branch of checkSymbol: the branch
(and the lowercased strings it binds) exists only when the length
difference is within maxDist plus one or within maxChunkDiffSize. -/
def withinLenWindow (maxDist : Nat) (tok name : List Char) : Prop :=
  natAbsDiff tok.length name.length ≤ maxDist + 1 ∨
    natAbsDiff tok.length name.length ≤ maxChunkDiffSize

instance (maxDist : Nat) (tok name : List Char) :
    Decidable (withinLenWindow maxDist tok name) := by
  unfold withinLenWindow
  infer_instance

/-- Edit-distance branch of the cascade: inside the length window, the
distance over the lowercased strings must be positive, within maxDist, and
pass the distance gate. -/
def distanceBranch (maxDist : Nat) (tok name : List Char) : Bool :=
  if withinLenWindow maxDist tok name then
    decide (0 < damerauLevenshtein (toLowerStr tok) (toLowerStr name)) &&
    decide (damerauLevenshtein (toLowerStr tok) (toLowerStr name) ≤ maxDist) &&
    passesDistanceGate (toLowerStr tok) (toLowerStr name)
      (damerauLevenshtein (toLowerStr tok) (toLowerStr name))
  else false

/-- Final cascade branch of checkSymbol: in the Go code docLower and
nameLower stay empty strings when the length window was not entered, which
makes the emptiness guards of this branch fail; inside the window the
guards read the lowercased strings.  This definition reproduces exactly
that. -/
def smallChunkBranch (maxDist : Nat) (tok name : List Char) : Bool :=
  if withinLenWindow maxDist tok name then
    decide (toLowerStr name ≠ []) && decide (toLowerStr tok ≠ []) &&
      hasSmallChunkDifference (toLowerStr tok) (toLowerStr name) maxChunkDiffSize
  else false

/-- Similarity cascade of checkSymbol.  The Go code guards every later
branch with the negation of the accumulated match flag, which is the same
value as this disjunction, taken in the order of the code. -/
def cascadeMatch (cfg : Config) (tok name : List Char) : Bool :=
  distanceBranch cfg.maxDist tok name ||
  isCamelSwapVariant tok name ||
  (equalFold tok name && decide (tok ≠ name)) ||
  hasSimilarCamelWord cfg.maxDist tok name ||
  hasCamelChunkReplacement tok name cfg.maxCamelChunkReplace ||
  hasCamelChunkInsertionOrRemoval tok name cfg.maxCamelChunkInsert ||
  smallChunkBranch cfg.maxDist tok name

/-- Decision for one symbol, checkSymbol of the engine: export gates, token
extraction and length gate, narrative filters, similarity cascade, and the
diagnostic with its replacement.  The Go replacement guard also checks that
both positions are valid; with block-relative offsets the strict inequality
of the range ends is the content of the check. -/
def checkSymbol (cfg : Config) (doc : Option (List Char)) (name : List Char) (exported : Bool)
    (kind : SymbolKind) (declPos : Nat) : Option Diagnostic :=
  if name = [] then none
  else
    match doc with
    | none => none
    | some raw =>
      if exported && !cfg.includeExported then none
      else if !exported && !cfg.includeUnexported then none
      else
        match firstIdentifierLike raw with
        | none => none
        | some (firstTok, tokStart, docLine) =>
          if firstTok.length < minDocTokenLen then none
          else if suppressedByFilters cfg firstTok docLine name kind then none
          else if cascadeMatch cfg firstTok name then
            some { pos := declPos,
                   message := diagnosticMessage firstTok name,
                   fix := if tokStart < tokStart + firstTok.length then
                            some { start := tokStart, stop := tokStart + firstTok.length,
                                   text := name }
                          else none }
          else none

/-- Per-record behavior of the run function: the generated-file gate, the
type and interface-method opt-ins (checkInterfaceMethods passes kindFunc
for interface methods), then checkSymbol. -/
def analyzeRecord (cfg : Config) (rec : DeclarationRecord) : Option Diagnostic :=
  if rec.generated && !cfg.includeGenerated then none
  else
    match rec.kind with
    | DeclKind.funcDecl =>
      checkSymbol cfg rec.doc rec.name rec.exported SymbolKind.kindFunc rec.pos
    | DeclKind.typeDecl =>
      if cfg.includeTypes then
        checkSymbol cfg rec.doc rec.name rec.exported SymbolKind.kindType rec.pos
      else none
    | DeclKind.ifaceMethodDecl =>
      if cfg.includeInterfaceMethods then
        checkSymbol cfg rec.doc rec.name rec.exported SymbolKind.kindFunc rec.pos
      else none

/-- Application of a replacement edit to the doc block, the driver-side fix
application the spec describes: substitute the text over the byte range. -/
def applyReplacement (raw : List Char) (r : SuggestedReplacement) : List Char :=
  raw.take r.start ++ r.text ++ raw.drop r.stop

/-- Helper: checkSymbol yields nothing whenever the doc block yields no
token or a token shorter than minDocTokenLen. -/
theorem checkSymbol_none_of_short (cfg : Config) (doc : Option (List Char)) (name : List Char)
    (exported : Bool) (kind : SymbolKind) (declPos : Nat)
    (h : ∀ raw, doc = some raw → ∀ t s l, firstIdentifierLike raw = some (t, s, l) →
      t.length < minDocTokenLen) :
    checkSymbol cfg doc name exported kind declPos = none := by
  unfold checkSymbol
  by_cases hn : name = []
  · rw [if_pos hn]
  · rw [if_neg hn]
    cases doc with
    | none => rfl
    | some raw =>
      simp only []
      by_cases h1 : (exported && !cfg.includeExported) = true
      · rw [if_pos h1]
      · rw [if_neg h1]
        by_cases h2 : (!exported && !cfg.includeUnexported) = true
        · rw [if_pos h2]
        · rw [if_neg h2]
          cases hfi : firstIdentifierLike raw with
          | none => rfl
          | some v =>
            obtain ⟨t, s, l⟩ := v
            exact if_pos (h raw rfl t s l hfi)

/-- Helper: analyzeRecord factors through checkSymbol, so the same
hypothesis kills the whole record. -/
theorem analyzeRecord_none_of_short (cfg : Config) (rec : DeclarationRecord)
    (h : ∀ raw, rec.doc = some raw → ∀ t s l, firstIdentifierLike raw = some (t, s, l) →
      t.length < minDocTokenLen) :
    analyzeRecord cfg rec = none := by
  unfold analyzeRecord
  split
  · rfl
  · cases rec.kind with
    | funcDecl => exact checkSymbol_none_of_short _ _ _ _ _ _ h
    | typeDecl =>
      by_cases ht : cfg.includeTypes = true
      · rw [if_pos ht]
        exact checkSymbol_none_of_short _ _ _ _ _ _ h
      · rw [if_neg ht]
    | ifaceMethodDecl =>
      by_cases ht : cfg.includeInterfaceMethods = true
      · rw [if_pos ht]
        exact checkSymbol_none_of_short _ _ _ _ _ _ h
      · rw [if_neg ht]

/-- Baseline concrete configuration used by concrete records in this
development: maxdist 1, unexported only, no narrative word lists, plain
word skipping off, chunk bounds 2. -/
def cfgBase : Config :=
  { maxDist := 1, includeUnexported := true, includeExported := false, includeTypes := false,
    includeGenerated := false, includeInterfaceMethods := false, allowedLeadingWords := [],
    allowedPrefixes := [], skipPlainWordCamel := false, maxCamelChunkInsert := 2,
    maxCamelChunkReplace := 2 }

/-- C8: For every record with generated = true, when the configuration has
include_generated = false the engine emits no diagnostic for that record. -/
theorem C8_generated_gate (cfg : Config) (rec : DeclarationRecord)
    (hg : rec.generated = true) (hi : cfg.includeGenerated = false) :
    analyzeRecord cfg rec = none := by
  unfold analyzeRecord
  rw [if_pos (by rw [hg, hi]; rfl)]

/-- Witness for C8 at a concrete generated record. -/
theorem C8_generated_gate_witness :
    analyzeRecord cfgBase
      { name := "abC".data, exported := false, kind := DeclKind.funcDecl,
        doc := some "// abc xyz".data, generated := true, pos := 0 } = none :=
  C8_generated_gate cfgBase _ rfl rfl

/-- C9: For every record whose doc block is empty, yields no token, or
yields a token of length below three, the engine emits no diagnostic.  The
hypothesis covers all three situations at once: whenever the doc block is
present and the extractor produces a token, that token is shorter than
three bytes (an absent or empty block produces no token, making the
hypothesis vacuous there). -/
theorem C9_empty_or_short_token (cfg : Config) (rec : DeclarationRecord)
    (h : ∀ raw, rec.doc = some raw → ∀ t s l, firstIdentifierLike raw = some (t, s, l) →
      t.length < 3) :
    analyzeRecord cfg rec = none :=
  analyzeRecord_none_of_short cfg rec h

/-- Witness for C9 at a record whose token has two bytes. -/
theorem C9_empty_or_short_token_witness :
    analyzeRecord cfgBase
      { name := "abc".data, exported := false, kind := DeclKind.funcDecl,
        doc := some "// ab cd".data, generated := false, pos := 0 } = none := by
  apply C9_empty_or_short_token
  intro raw hraw t s l hfi
  injection hraw with hraw
  subst hraw
  have hextract : firstIdentifierLike "// ab cd".data = some ("ab".data, 3, "ab cd".data) := by
    decide
  rw [hextract] at hfi
  injection hfi with hfi
  rw [show t = "ab".data from congrArg Prod.fst hfi.symm]
  decide

/-- Shared overlap quantity of the claim: prefix plus suffix overlap capped
at the doc token length. -/
def sharedOverlap (doc name : List Char) : Nat :=
  min doc.length (commonPrefixLength doc name + commonSuffixLength doc name)

/-- DistanceGate pass condition in the words of the claim. -/
def distanceGateSpec (doc name : List Char) (d : Nat) : Prop :=
  3 + d ≤ doc.length ∧ 3 ≤ name.length ∧
    (max 3 (doc.length - d) ≤ sharedOverlap doc name ∨
      (6 ≤ doc.length ∧ doc.length ≤ 2 * sharedOverlap doc name ∧
        doc.length - sharedOverlap doc name ≤ d))

/-- C4: For all strings doc and name and every distance d above zero, the
DistanceGate passes exactly when the doc token is long enough, the name is
long enough, and the shared overlap reaches the required amount or the
majority fallback applies; in particular it passes for
(validateAllowedTopology, validateAllowedTopologies, 2) and fails for
(validateAllowedTopology, Foo, 2). -/
theorem C4_distance_gate :
    (∀ doc name d, 0 < d →
      (passesDistanceGate doc name d = true ↔ distanceGateSpec doc name d)) ∧
    passesDistanceGate "validateAllowedTopology".data "validateAllowedTopologies".data 2 = true ∧
    passesDistanceGate "validateAllowedTopology".data "Foo".data 2 = false := by
  refine ⟨?_, by decide, by decide⟩
  intro doc name d hd
  unfold passesDistanceGate distanceGateSpec sharedOverlap
  simp only [minDocTokenLen]
  rw [if_neg (by omega : ¬ d = 0)]
  generalize commonPrefixLength doc name + commonSuffixLength doc name = r
  generalize doc.length = dn
  generalize name.length = nn
  split_ifs <;> simp_all <;> omega

/-- Witness for C4: the general part applied at the first concrete test
pair of the distance gate test file. -/
theorem C4_distance_gate_witness :
    passesDistanceGate "validateAllowedTopology".data "validateAllowedTopologies".data 2 = true ↔
      distanceGateSpec "validateAllowedTopology".data "validateAllowedTopologies".data 2 :=
  C4_distance_gate.1 "validateAllowedTopology".data "validateAllowedTopologies".data 2
    (by decide)

/-- C3 counterexample: at max_dist 1 the pair abc / abd satisfies every
condition of the claim (lowercased forms differ, distance within
max_dist + 1, shorter length above one, common prefix reaching
max 2 (min_len - 2) = 2), yet wordClose returns false, because the code
raises the threshold to min_len itself when min_len - 2 is below two. -/
theorem C3_word_close_counterexample :
    wordClose 1 "abc".data "abd".data = false ∧
    toLowerStr "abc".data ≠ toLowerStr "abd".data ∧
    damerauLevenshtein (toLowerStr "abc".data) (toLowerStr "abd".data) ≤ 1 + 1 ∧
    1 < min (toLowerStr "abc".data).length (toLowerStr "abd".data).length ∧
    max 2 (min (toLowerStr "abc".data).length (toLowerStr "abd".data).length - 2) ≤
      commonPrefixLength (toLowerStr "abc".data) (toLowerStr "abd".data) := by
  decide

/-- Threshold the code actually uses: min_len - 2 when that is at least
two (min_len at least four), otherwise min_len itself. -/
def wordCloseThreshold (minLen : Nat) : Nat :=
  if 4 ≤ minLen then minLen - 2 else minLen

/-- Close-word condition in the words of the claim, amended only in the
threshold. -/
def wordCloseSpec (maxDist : Nat) (a b : List Char) : Prop :=
  toLowerStr a = toLowerStr b ∨
    (damerauLevenshtein (toLowerStr a) (toLowerStr b) ≤ maxDist + 1 ∧
      1 < min (toLowerStr a).length (toLowerStr b).length ∧
      (wordCloseThreshold (min (toLowerStr a).length (toLowerStr b).length) ≤
          commonPrefixLength (toLowerStr a) (toLowerStr b) ∨
        wordCloseThreshold (min (toLowerStr a).length (toLowerStr b).length) ≤
          commonSuffixLength (toLowerStr a) (toLowerStr b)))

/-- C3 amended: For all non-empty strings a and b, wordClose is true exactly
when a equals b after lowercasing, or else the Damerau-Levenshtein distance
is at most max_dist + 1, the shorter lowercased length is above one, and
the common prefix or suffix length reaches the threshold, which is
min_len - 2 when min_len is at least four and min_len itself otherwise. -/
theorem C3_word_close_amended (maxDist : Nat) (a b : List Char) (ha : a ≠ []) (hb : b ≠ []) :
    wordClose maxDist a b = true ↔ wordCloseSpec maxDist a b := by
  unfold wordClose wordCloseSpec wordCloseThreshold
  rw [if_neg (by simp [ha, hb])]
  by_cases heq : toLowerStr a = toLowerStr b
  · simp [heq]
  · rw [if_neg heq]
    by_cases hdist : maxDist + 1 < damerauLevenshtein (toLowerStr a) (toLowerStr b)
    · rw [if_pos hdist]
      simp only [Bool.false_eq_true, false_iff]
      intro hcl
      rcases hcl with h | ⟨h1, _⟩
      · exact heq h
      · omega
    · rw [if_neg hdist]
      by_cases hmin : min (toLowerStr a).length (toLowerStr b).length ≤ 1
      · rw [if_pos hmin]
        simp only [Bool.false_eq_true, false_iff]
        intro hcl
        rcases hcl with h | ⟨_, h2, _⟩
        · exact heq h
        · omega
      · rw [if_neg hmin]
        have hth :
            (if min (toLowerStr a).length (toLowerStr b).length - 2 < 2 then
                min (toLowerStr a).length (toLowerStr b).length
              else min (toLowerStr a).length (toLowerStr b).length - 2) =
            (if 4 ≤ min (toLowerStr a).length (toLowerStr b).length then
                min (toLowerStr a).length (toLowerStr b).length - 2
              else min (toLowerStr a).length (toLowerStr b).length) := by
          split_ifs <;> omega
        simp only [hth, decide_eq_true_eq]
        constructor
        · intro h
          exact Or.inr ⟨by omega, by omega, h⟩
        · intro h
          rcases h with h | ⟨_, _, h3⟩
          · exact absurd h heq
          · exact h3

/-- Witness for C3 amended at a concrete close pair. -/
theorem C3_word_close_amended_witness :
    ("abcd".data ≠ [] ∧
      (wordClose 1 "abcd".data "abce".data = true ↔ wordCloseSpec 1 "abcd".data "abce".data)) :=
  ⟨by decide, C3_word_close_amended 1 "abcd".data "abce".data (by decide) (by decide)⟩

/-- Helper: Char.ofNat at a valid scalar value round-trips through toNat. -/
theorem toNat_charOfNat_valid (n : Nat) (h : n < 0xd800) : (Char.ofNat n).toNat = n := by
  simp [Char.ofNat, Nat.isValidChar, h, Char.toNat, Char.ofNatAux, UInt32.toNat, UInt32.ofNat',
    BitVec.toNat_ofNatLt]

/-- Helper: unfolding of Char.toLower as a plain conditional. -/
theorem charToLower_unfold (c : Char) :
    c.toLower = if c.toNat ≥ 65 ∧ c.toNat ≤ 90 then Char.ofNat (c.toNat + 32) else c := rfl

/-- Helper: ASCII lowercasing is idempotent on characters. -/
theorem charToLower_idem (c : Char) : c.toLower.toLower = c.toLower := by
  by_cases h : c.toNat ≥ 65 ∧ c.toNat ≤ 90
  · have hl : c.toLower = Char.ofNat (c.toNat + 32) := by
      rw [charToLower_unfold c, if_pos h]
    have h1 : (Char.ofNat (c.toNat + 32)).toNat = c.toNat + 32 := by
      apply toNat_charOfNat_valid
      omega
    rw [hl, charToLower_unfold, h1, if_neg (by omega)]
  · have hl : c.toLower = c := by
      rw [charToLower_unfold c, if_neg h]
    rw [hl, hl]

/-- Helper: lowercasing a string twice equals lowercasing it once. -/
theorem toLowerStr_idem (s : List Char) : toLowerStr (toLowerStr s) = toLowerStr s := by
  induction s with
  | nil => rfl
  | cons c rest ih =>
    simp only [toLowerStr, List.map_cons] at ih ⊢
    rw [charToLower_idem]
    have := ih
    simp only [toLowerStr] at this
    rw [List.map_map] at this ⊢
    exact congrArg (List.cons c.toLower) this

/-- Helper: lowercasing preserves length. -/
theorem toLowerStr_length (s : List Char) : (toLowerStr s).length = s.length := by
  simp [toLowerStr]

/-- Helper: lowercasing yields the empty string only on the empty string. -/
theorem toLowerStr_eq_nil_iff (s : List Char) : toLowerStr s = [] ↔ s = [] := by
  simp [toLowerStr]

/-- Helper: the chunks the index loop emits concatenate to the lowercased
remainder of the rune list, provided the chunk start precedes the scan
position and the fuel covers the rest of the walk. -/
theorem splitCamelAux_join (r : List Char) : ∀ fuel start i, start < i → i ≤ r.length →
    r.length ≤ i + fuel →
    (splitCamelAux r fuel start i).flatten = toLowerStr (r.drop start) := by
  intro fuel
  induction fuel with
  | zero =>
    intro start i h1 h2 h3
    have : i = r.length := by omega
    subst this
    unfold splitCamelAux
    rw [if_pos (by omega)]
    simp
  | succ fuel ih =>
    intro start i h1 h2 h3
    unfold splitCamelAux
    by_cases hi : i < r.length
    · rw [if_pos hi]
      by_cases hb : camelWordBoundary r i = true
      · rw [if_pos hb]
        have hw : toLowerStr ((r.drop start).take (i - start)) ≠ [] := by
          rw [Ne, toLowerStr_eq_nil_iff]
          intro hcon
          have := congrArg List.length hcon
          simp [List.length_take, List.length_drop] at this
          omega
        rw [if_neg hw]
        simp only [List.flatten_cons]
        rw [ih i (i + 1) (by omega) (by omega) (by omega)]
        have hdd : r.drop i = (r.drop start).drop (i - start) := by
          rw [List.drop_drop]
          congr 1
          omega
        rw [hdd]
        rw [show toLowerStr ((r.drop start).take (i - start)) ++
            toLowerStr ((r.drop start).drop (i - start)) = toLowerStr (r.drop start) from ?_]
        simp only [toLowerStr]
        rw [← List.map_append, List.take_append_drop]
      · rw [if_neg hb]
        exact ih start (i + 1) (by omega) (by omega) (by omega)
    · rw [if_neg hi]
      have : i = r.length := by omega
      subst this
      rw [if_pos (by omega)]
      simp

/-- Helper: every chunk the index loop emits is non-empty and fixed by
lowercasing. -/
theorem splitCamelAux_mem (r : List Char) : ∀ fuel start i w,
    w ∈ splitCamelAux r fuel start i → w ≠ [] ∧ toLowerStr w = w := by
  intro fuel
  induction fuel with
  | zero =>
    intro start i w hw
    unfold splitCamelAux at hw
    by_cases hs : start < r.length
    · rw [if_pos hs] at hw
      simp only [List.mem_singleton] at hw
      subst hw
      refine ⟨?_, toLowerStr_idem _⟩
      rw [Ne, toLowerStr_eq_nil_iff]
      intro hc
      have := congrArg List.length hc
      simp [List.length_drop] at this
      omega
    · rw [if_neg hs] at hw
      simp at hw
  | succ fuel ih =>
    intro start i w hw
    unfold splitCamelAux at hw
    by_cases hi : i < r.length
    · rw [if_pos hi] at hw
      by_cases hb : camelWordBoundary r i = true
      · rw [if_pos hb] at hw
        by_cases hweq : toLowerStr ((r.drop start).take (i - start)) = []
        · rw [if_pos hweq] at hw
          exact ih _ _ _ hw
        · rw [if_neg hweq] at hw
          rcases List.mem_cons.mp hw with h | h
          · subst h
            exact ⟨hweq, toLowerStr_idem _⟩
          · exact ih _ _ _ h
      · rw [if_neg hb] at hw
        exact ih _ _ _ hw
    · rw [if_neg hi] at hw
      by_cases hs : start < r.length
      · rw [if_pos hs] at hw
        simp only [List.mem_singleton] at hw
        subst hw
        refine ⟨?_, toLowerStr_idem _⟩
        rw [Ne, toLowerStr_eq_nil_iff]
        intro hc
        have := congrArg List.length hc
        simp [List.length_drop] at this
        omega
      · rw [if_neg hs] at hw
        simp at hw

/-- Helper: the chunk list is empty exactly when the input consists only of
underscores (or is empty). -/
theorem splitCamelWords_eq_nil_iff (s : List Char) :
    splitCamelWords s = [] ↔ ∀ c ∈ s, c = '_' := by
  unfold splitCamelWords
  by_cases h : s.filter (fun c => c != '_') = []
  · rw [if_pos h]
    simp only [true_iff]
    intro c hc
    by_contra hne
    have : c ∈ s.filter (fun c => c != '_') := by
      rw [List.mem_filter]
      exact ⟨hc, by simpa using hne⟩
    rw [h] at this
    simp at this
  · rw [if_neg h]
    constructor
    · intro hcon
      exfalso
      have hlen : 0 < (s.filter (fun c => c != '_')).length := List.length_pos.mpr h
      have hj := splitCamelAux_join (s.filter (fun c => c != '_'))
        (s.filter (fun c => c != '_')).length 0 1 (by omega) (by omega) (by omega)
      rw [hcon] at hj
      simp only [List.flatten_nil, List.drop_zero] at hj
      exact h ((toLowerStr_eq_nil_iff _).mp hj.symm)
    · intro hall
      exfalso
      apply h
      rw [List.filter_eq_nil_iff]
      intro c hc
      simp [hall c hc]

/-- C10: For every input string, every chunk of splitCamelWords is
non-empty and entirely lowercase (fixed by lowercasing), the concatenation
of the chunks equals the lowercasing of the input with all underscores
removed, and the result is empty exactly when the input consists only of
underscores or is empty. -/
theorem C10_split_camel_invariants (s : List Char) :
    (∀ w ∈ splitCamelWords s, w ≠ [] ∧ toLowerStr w = w) ∧
    (splitCamelWords s).flatten = toLowerStr (s.filter (fun c => c != '_')) ∧
    (splitCamelWords s = [] ↔ ∀ c ∈ s, c = '_') := by
  refine ⟨?_, ?_, splitCamelWords_eq_nil_iff s⟩
  · intro w hw
    unfold splitCamelWords at hw
    by_cases h : s.filter (fun c => c != '_') = []
    · rw [if_pos h] at hw
      simp at hw
    · rw [if_neg h] at hw
      exact splitCamelAux_mem _ _ _ _ _ hw
  · unfold splitCamelWords
    by_cases h : s.filter (fun c => c != '_') = []
    · rw [if_pos h, h]
      rfl
    · rw [if_neg h]
      have hlen : 0 < (s.filter (fun c => c != '_')).length := List.length_pos.mpr h
      have hj := splitCamelAux_join (s.filter (fun c => c != '_'))
        (s.filter (fun c => c != '_')).length 0 1 (by omega) (by omega) (by omega)
      simpa using hj

/-- Witness for C10 at a concrete identifier, reading off the first chunk
facts. -/
theorem C10_witness : "get".data ≠ [] ∧ toLowerStr "get".data = "get".data :=
  (C10_split_camel_invariants "getPodIPs".data).1 "get".data (by decide)

/-- Helper: a dot-free string splits into a single part at its own offset. -/
theorem splitOnDotFrom_no_dot (post : List Char) (h : ∀ c ∈ post, c ≠ '.') :
    ∀ k, splitOnDotFrom post k = [(post, k)] := by
  induction post with
  | nil => intro k; rfl
  | cons c rest ih =>
    intro k
    unfold splitOnDotFrom
    rw [if_neg (h c (List.mem_cons_self c rest))]
    rw [ih (fun x hx => h x (List.mem_cons_of_mem c hx)) (k + 1)]

/-- Helper: when the word ends in a dot-free tail, the part list ends with
that tail, placed right after the last dot. -/
theorem splitOnDotFrom_last (post : List Char) (hpost : ∀ c ∈ post, c ≠ '.') :
    ∀ pre s, ∃ M, M ≠ [] ∧
      splitOnDotFrom (pre ++ '.' :: post) s = M ++ [(post, s + pre.length + 1)] := by
  intro pre
  induction pre with
  | nil =>
    intro s
    refine ⟨[([], s)], by simp, ?_⟩
    show splitOnDotFrom ('.' :: post) s = _
    unfold splitOnDotFrom
    rw [if_pos rfl, splitOnDotFrom_no_dot post hpost (s + 1)]
    simp
  | cons c pre' ih =>
    intro s
    by_cases hc : c = '.'
    · subst hc
      obtain ⟨M', hM', heq⟩ := ih (s + 1)
      refine ⟨([], s) :: M', by simp, ?_⟩
      show splitOnDotFrom ('.' :: (pre' ++ '.' :: post)) s = _
      unfold splitOnDotFrom
      rw [if_pos rfl, heq]
      simp
      omega
    · obtain ⟨M', hM', heq⟩ := ih (s + 1)
      cases M' with
      | nil => exact absurd rfl hM'
      | cons m0 M'' =>
        refine ⟨(c :: m0.1, s) :: M'', by simp, ?_⟩
        show splitOnDotFrom (c :: (pre' ++ '.' :: post)) s = _
        unfold splitOnDotFrom
        rw [if_neg hc, heq]
        simp
        omega

/-- Helper: the right-to-left search succeeds immediately on a part whose
pointer-stripped text starts with an identifier run. -/
theorem findIdentRev_cons_found (p : List Char) (off : Nat) (rest : List (List Char × Nat))
    (hid : (leadingIdentRun (trimPointerPrefixes p).1).1 ≠ []) :
    findIdentRev ((p, off) :: rest) =
      some ((leadingIdentRun (trimPointerPrefixes p).1).1, off + (trimPointerPrefixes p).2) := by
  unfold findIdentRev
  rw [if_neg hid]

/-- C1 amended: for a word of the shape pre.post with post free of dots and
carrying an identifier run after pointer stripping, the extractor returns
the identifier run of the part after the LAST dot (post), not of the part
before the first dot; for foo.Bar the token is Bar. -/
theorem C1_token_after_last_dot (pre post : List Char)
    (hpost : ∀ c ∈ post, c ≠ '.')
    (hid : (leadingIdentRun (trimPointerPrefixes post).1).1 ≠ []) :
    extractIdentifierToken (pre ++ '.' :: post) =
      some ((leadingIdentRun (trimPointerPrefixes post).1).1,
        pre.length + 1 + (trimPointerPrefixes post).2) := by
  unfold extractIdentifierToken
  rw [if_neg (by simp : ¬ (pre ++ '.' :: post) = [])]
  have hcontains : (pre ++ '.' :: post).contains '.' = true := by
    simp [List.contains]
  rw [if_pos hcontains]
  obtain ⟨M, hM, heq⟩ := splitOnDotFrom_last post hpost pre 0
  rw [heq, List.reverse_append]
  simp only [List.reverse_singleton, List.singleton_append]
  rw [findIdentRev_cons_found post _ _ hid]
  simp

/-- Witness for C1 amended at the concrete word foo.Bar. -/
theorem C1_token_after_last_dot_witness :
    extractIdentifierToken ("foo".data ++ '.' :: "Bar".data) =
      some ((leadingIdentRun (trimPointerPrefixes "Bar".data).1).1,
        "foo".data.length + 1 + (trimPointerPrefixes "Bar".data).2) :=
  C1_token_after_last_dot "foo".data "Bar".data (by decide) (by decide)

/-- C1 counterexample: on the doc block with first word foo.Bar the
extractor returns Bar, not the identifier run foo of the part before the
first dot as the claim states. -/
theorem C1_counterexample :
    firstIdentifierLike "// foo.Bar does things".data =
      some ("Bar".data, 7, "foo.Bar does things".data) ∧
    "Bar".data ≠ "foo".data ∧
    (leadingIdentRun "foo".data).1 = "foo".data := by decide

/-- Kind passed to checkSymbol by the run loop for each declaration kind
(interface methods are checked as functions). -/
def symbolKindOf : DeclKind → SymbolKind
  | DeclKind.funcDecl => SymbolKind.kindFunc
  | DeclKind.typeDecl => SymbolKind.kindType
  | DeclKind.ifaceMethodDecl => SymbolKind.kindFunc

/-- Concrete record for the C2 counterexample: an unexported function named
serve documented with a capitalized narrative sentence. -/
def recC2 : DeclarationRecord :=
  { name := "serve".data, exported := false, kind := DeclKind.funcDecl,
    doc := some "// Serve the peers".data, generated := false, pos := 0 }

/-- C2 counterexample: this record passes the export, kind and generated
gates, its extracted token Serve has length at least three, equals the
symbol serve case-insensitively while differing in case, and yet the engine
emits no diagnostic, because the narrative-sentence filter fires on the
second word the. -/
theorem C2_counterexample :
    recC2.generated = false ∧ recC2.exported = false ∧ cfgBase.includeUnexported = true ∧
    recC2.kind = DeclKind.funcDecl ∧
    firstIdentifierLike "// Serve the peers".data =
      some ("Serve".data, 3, "Serve the peers".data) ∧
    3 ≤ "Serve".data.length ∧
    toLowerStr "Serve".data = toLowerStr "serve".data ∧
    "Serve".data ≠ "serve".data ∧
    analyzeRecord cfgBase recC2 = none := by decide

/-- Helper: the distance recurrence on a string against itself is zero. -/
theorem dlFuel_self (fuel : Nat) : ∀ a : List Char, a.length < fuel → dlFuel fuel a a = 0 := by
  induction fuel with
  | zero => intro a h; omega
  | succ fuel ih =>
    intro a h
    cases a with
    | nil => rfl
    | cons x xs =>
      show dlFuel (fuel + 1) (x :: xs) (x :: xs) = 0
      unfold dlFuel
      rw [if_pos rfl]
      have h3 : dlFuel fuel xs xs = 0 := ih xs (by simpa using h)
      cases xs with
      | nil =>
        simp [h3]
      | cons x2 xs2 =>
        simp only [h3, Nat.add_zero, Nat.min_zero, Nat.zero_min]
        split_ifs <;> rfl

/-- Helper: the Damerau-Levenshtein distance of a string to itself is
zero. -/
theorem damerauLevenshtein_self (a : List Char) : damerauLevenshtein a a = 0 := by
  cases a with
  | nil => rfl
  | cons x xs =>
    exact dlFuel_self _ _ (by simp)

/-- Helper: the absolute difference of equal lengths is zero. -/
theorem natAbsDiff_self (a : Nat) : natAbsDiff a a = 0 := by
  simp [natAbsDiff]

/-- Helper: zipping a chunk list with itself leaves no mismatching pair. -/
theorem zip_self_filter_ne (ws : List (List Char)) :
    (ws.zip ws).filter (fun p => p.1 != p.2) = [] := by
  induction ws with
  | nil => rfl
  | cons w rest ih => simp [List.zip_cons_cons, List.filter_cons, ih]

/-- Helper: no chunk swap relates a token to itself. -/
theorem isCamelSwapVariant_self (s : List Char) : isCamelSwapVariant s s = false := by
  unfold isCamelSwapVariant
  by_cases h : (splitCamelWords s).length ≠ (splitCamelWords s).length ∨
      (splitCamelWords s).length < 2
  · rw [if_pos h]
  · rw [if_neg h, zip_self_filter_ne]

/-- Helper: the mismatch loop over a self-zip keeps its counter. -/
theorem similarLoop_zip_self (k : Nat) (ws : List (List Char)) : ∀ m,
    similarLoop k (ws.zip ws) m = decide (0 < m) := by
  induction ws with
  | nil => intro m; rfl
  | cons w rest ih =>
    intro m
    show similarLoop k ((w, w) :: rest.zip rest) m = _
    unfold similarLoop
    rw [if_pos rfl]
    exact ih m

/-- Helper: no single-chunk typo relates a token to itself. -/
theorem hasSimilarCamelWord_self (k : Nat) (s : List Char) :
    hasSimilarCamelWord k s s = false := by
  unfold hasSimilarCamelWord
  by_cases h : splitCamelWords s = [] ∨
      (splitCamelWords s).length ≠ (splitCamelWords s).length
  · rw [if_pos h]
  · rw [if_neg h, similarLoop_zip_self]
    rfl

/-- Helper: the replacement counting loop over a self-zip counts only
matches. -/
theorem replLoop_zip_self (k : Nat) (ws : List (List Char)) : ∀ mis mat,
    replLoop k (ws.zip ws) mis mat = some (mis, mat + ws.length) := by
  induction ws with
  | nil => intro mis mat; rfl
  | cons w rest ih =>
    intro mis mat
    show replLoop k ((w, w) :: rest.zip rest) mis mat = _
    unfold replLoop
    rw [if_pos rfl, ih]
    simp
    omega

/-- Helper: no chunk replacement relates a token to itself. -/
theorem hasCamelChunkReplacement_self (s : List Char) (k : Nat) :
    hasCamelChunkReplacement s s k = false := by
  unfold hasCamelChunkReplacement
  by_cases hk : k = 0
  · rw [if_pos hk]
  · rw [if_neg hk]
    by_cases h : splitCamelWords s = [] ∨
        (splitCamelWords s).length ≠ (splitCamelWords s).length
    · rw [if_pos h]
    · rw [if_neg h]
      by_cases h2 : (splitCamelWords s).length < 2
      · rw [if_pos h2]
      · rw [if_neg h2, replLoop_zip_self]
        simp

/-- Helper: no chunk insertion or removal relates a token to itself. -/
theorem hasCamelChunkInsertionOrRemoval_self (s : List Char) (k : Nat) :
    hasCamelChunkInsertionOrRemoval s s k = false := by
  unfold hasCamelChunkInsertionOrRemoval
  by_cases hk : k = 0
  · rw [if_pos hk]
  · rw [if_neg hk]
    by_cases h : splitCamelWords s = [] ∨ splitCamelWords s = []
    · rw [if_pos h]
    · rw [if_neg h]
      rw [if_pos (Or.inl (natAbsDiff_self _))]

/-- Helper: no contiguous insertion window relates a string to itself. -/
theorem hasSmallChunkDifference_refl (a : List Char) (k : Nat) :
    hasSmallChunkDifference a a k = false := by
  unfold hasSmallChunkDifference
  by_cases hk : k = 0
  · rw [if_pos hk]
  · rw [if_neg hk, if_pos rfl]

/-- Helper: the similarity cascade never fires when the token equals the
symbol name. -/
theorem cascadeMatch_self (cfg : Config) (s : List Char) : cascadeMatch cfg s s = false := by
  have hdist : distanceBranch cfg.maxDist s s = false := by
    unfold distanceBranch
    by_cases hc : withinLenWindow cfg.maxDist s s
    · rw [if_pos hc, damerauLevenshtein_self]
      simp
    · rw [if_neg hc]
  have hsmall : smallChunkBranch cfg.maxDist s s = false := by
    unfold smallChunkBranch
    by_cases hc : withinLenWindow cfg.maxDist s s
    · rw [if_pos hc, hasSmallChunkDifference_refl]
      simp
    · rw [if_neg hc]
  unfold cascadeMatch
  simp [hdist, hsmall, isCamelSwapVariant_self, hasSimilarCamelWord_self,
    hasCamelChunkReplacement_self, hasCamelChunkInsertionOrRemoval_self]

/-- Helper: checkSymbol emits nothing when the extracted token equals the
symbol name. -/
theorem checkSymbol_none_of_token_eq_name (cfg : Config) (doc : Option (List Char))
    (name : List Char) (exported : Bool) (kind : SymbolKind) (declPos : Nat)
    (h : ∀ raw, doc = some raw → ∀ t s l, firstIdentifierLike raw = some (t, s, l) →
      t = name) :
    checkSymbol cfg doc name exported kind declPos = none := by
  unfold checkSymbol
  by_cases hn : name = []
  · rw [if_pos hn]
  · rw [if_neg hn]
    cases doc with
    | none => rfl
    | some raw =>
      simp only []
      by_cases h1 : (exported && !cfg.includeExported) = true
      · rw [if_pos h1]
      · rw [if_neg h1]
        by_cases h2 : (!exported && !cfg.includeUnexported) = true
        · rw [if_pos h2]
        · rw [if_neg h2]
          cases hfi : firstIdentifierLike raw with
          | none => rfl
          | some v =>
            obtain ⟨t, s, l⟩ := v
            have ht : t = name := h raw rfl t s l hfi
            subst ht
            by_cases hlen : t.length < minDocTokenLen
            · exact if_pos hlen
            · by_cases hsup : suppressedByFilters cfg t l t kind = true
              · exact (if_neg hlen).trans (if_pos hsup)
              · exact (if_neg hlen).trans ((if_neg hsup).trans
                  (if_neg (by simp [cascadeMatch_self])))

/-- Helper: the engine emits nothing for a record whose extracted token
equals the symbol name. -/
theorem analyzeRecord_none_of_token_eq_name (cfg : Config) (rec : DeclarationRecord)
    (h : ∀ raw, rec.doc = some raw → ∀ t s l, firstIdentifierLike raw = some (t, s, l) →
      t = rec.name) :
    analyzeRecord cfg rec = none := by
  unfold analyzeRecord
  split
  · rfl
  · cases rec.kind with
    | funcDecl => exact checkSymbol_none_of_token_eq_name _ _ _ _ _ _ h
    | typeDecl =>
      by_cases ht : cfg.includeTypes = true
      · rw [if_pos ht]
        exact checkSymbol_none_of_token_eq_name _ _ _ _ _ _ h
      · rw [if_neg ht]
    | ifaceMethodDecl =>
      by_cases ht : cfg.includeInterfaceMethods = true
      · rw [if_pos ht]
        exact checkSymbol_none_of_token_eq_name _ _ _ _ _ _ h
      · rw [if_neg ht]

/-- Concrete record for the C5 counterexample: the symbol name note is a
skippable doc label, so applying the suggested fix changes which word the
extractor picks. -/
def recC5 : DeclarationRecord :=
  { name := "note".data, exported := false, kind := DeclKind.funcDecl,
    doc := some "// nose nite stuff".data, generated := false, pos := 7 }

/-- C5 counterexample: the engine flags the token nose against the symbol
note and suggests replacing bytes 3 to 7 with note; applying exactly that
replacement and re-running the engine on the updated record still yields a
diagnostic, because the new first word note is skipped as a label and the
next word nite again matches note. -/
theorem C5_counterexample :
    analyzeRecord cfgBase recC5 =
      some { pos := 7, message := diagnosticMessage "nose".data "note".data,
             fix := some { start := 3, stop := 7, text := "note".data } } ∧
    (analyzeRecord cfgBase
      { recC5 with doc := some (applyReplacement "// nose nite stuff".data
          { start := 3, stop := 7, text := "note".data }) }).isSome = true := by
  constructor
  · decide
  · decide

/-- C5 amended: re-running the engine yields no diagnostic for every record
whose doc block extraction returns the symbol name itself, which is the
state fix application reaches whenever the replaced token is the word the
extractor re-reads (the counterexample shows the label-skipping extractor
may instead pick a later word). -/
theorem C5_idempotent_amended (cfg : Config) (rec : DeclarationRecord)
    (h : ∀ raw, rec.doc = some raw → ∀ t s l, firstIdentifierLike raw = some (t, s, l) →
      t = rec.name) :
    analyzeRecord cfg rec = none :=
  analyzeRecord_none_of_token_eq_name cfg rec h

/-- Witness for C5 amended: a record documented with its own name gets no
diagnostic. -/
theorem C5_idempotent_amended_witness :
    analyzeRecord cfgBase
      { name := "abc".data, exported := false, kind := DeclKind.funcDecl,
        doc := some "// abc stuff".data, generated := false, pos := 0 } = none := by
  apply C5_idempotent_amended
  intro raw hraw t s l hfi
  injection hraw with hraw
  subst hraw
  have hextract : firstIdentifierLike "// abc stuff".data =
      some ("abc".data, 3, "abc stuff".data) := by decide
  rw [hextract] at hfi
  injection hfi with hfi
  exact (congrArg Prod.fst hfi).symm

/-- Helper: the cascade fires on a case-insensitive match of distinct
strings through its case-fold branch. -/
theorem cascadeMatch_of_fold (cfg : Config) (tok name : List Char)
    (hfold : toLowerStr tok = toLowerStr name) (hneq : tok ≠ name) :
    cascadeMatch cfg tok name = true := by
  unfold cascadeMatch
  simp [equalFold, hfold, hneq]

/-- C2 amended: for every configuration and record that passes the export,
kind and generated gates, whose extracted token has length at least three
and equals the symbol case-insensitively while differing from it, and which
no narrative filter suppresses, the engine emits a diagnostic; no
hypothesis mentions max_dist, so this holds for every value of it. -/
theorem C2_case_mismatch_amended (cfg : Config) (rec : DeclarationRecord)
    (raw tok line : List Char) (start : Nat)
    (hdoc : rec.doc = some raw)
    (hgen : rec.generated = true → cfg.includeGenerated = true)
    (hexp : rec.exported = true → cfg.includeExported = true)
    (hunexp : rec.exported = false → cfg.includeUnexported = true)
    (hkindT : rec.kind = DeclKind.typeDecl → cfg.includeTypes = true)
    (hkindI : rec.kind = DeclKind.ifaceMethodDecl → cfg.includeInterfaceMethods = true)
    (hfi : firstIdentifierLike raw = some (tok, start, line))
    (hlen : 3 ≤ tok.length)
    (hfold : toLowerStr tok = toLowerStr rec.name)
    (hneq : tok ≠ rec.name)
    (hsup : suppressedByFilters cfg tok line rec.name (symbolKindOf rec.kind) = false) :
    (analyzeRecord cfg rec).isSome = true := by
  have hname : rec.name ≠ [] := by
    intro hcon
    rw [hcon] at hfold
    have htok : tok = [] := by
      have : toLowerStr tok = [] := by simpa [toLowerStr] using hfold
      exact (toLowerStr_eq_nil_iff tok).mp this
    rw [htok] at hlen
    simp at hlen
  have hcheck : ∀ kind, suppressedByFilters cfg tok line rec.name kind = false →
      (checkSymbol cfg rec.doc rec.name rec.exported kind rec.pos).isSome = true := by
    intro kind hsupk
    unfold checkSymbol
    rw [if_neg hname, hdoc]
    simp only []
    have he1 : (rec.exported && !cfg.includeExported) = false := by
      cases hre : rec.exported
      · simp
      · simp [hexp hre]
    have he2 : (!rec.exported && !cfg.includeUnexported) = false := by
      cases hre : rec.exported
      · simp [hunexp hre]
      · simp
    rw [if_neg (by simp [he1]), if_neg (by simp [he2]), hfi]
    simp only []
    rw [if_neg (by simp [minDocTokenLen]; omega)]
    rw [if_neg (by simp [hsupk])]
    rw [if_pos (cascadeMatch_of_fold cfg tok rec.name hfold hneq)]
    simp
  have hg : (rec.generated && !cfg.includeGenerated) = false := by
    cases hrg : rec.generated
    · simp
    · simp [hgen hrg]
  unfold analyzeRecord
  rw [if_neg (by simp [hg])]
  cases hk : rec.kind with
  | funcDecl =>
    refine hcheck SymbolKind.kindFunc ?_
    rw [hk] at hsup
    exact hsup
  | typeDecl =>
    rw [if_pos (hkindT hk)]
    refine hcheck SymbolKind.kindType ?_
    rw [hk] at hsup
    exact hsup
  | ifaceMethodDecl =>
    rw [if_pos (hkindI hk)]
    refine hcheck SymbolKind.kindFunc ?_
    rw [hk] at hsup
    exact hsup

/-- Witness for C2 amended at a concrete case-only mismatch. -/
theorem C2_case_mismatch_amended_witness :
    (analyzeRecord cfgBase
      { name := "abC".data, exported := false, kind := DeclKind.funcDecl,
        doc := some "// abc xyz".data, generated := false, pos := 3 }).isSome = true :=
  C2_case_mismatch_amended cfgBase _ "// abc xyz".data "abc".data "abc xyz".data 3
    rfl (by decide) (by decide) (by decide) (by decide) (by decide)
    (by decide) (by decide) (by decide) (by decide) (by decide)

/-- Helper: chunk closeness only gains pairs when maxDist grows. -/
theorem wordClose_mono (k : Nat) (a b : List Char) (h : wordClose k a b = true) :
    wordClose (k + 1) a b = true := by
  unfold wordClose at h ⊢
  by_cases h0 : a = [] ∨ b = []
  · rw [if_pos h0] at h
    exact absurd h (by simp)
  · rw [if_neg h0] at h ⊢
    by_cases heq : toLowerStr a = toLowerStr b
    · rw [if_pos heq] at h ⊢
    · rw [if_neg heq] at h ⊢
      by_cases hd : k + 1 < damerauLevenshtein (toLowerStr a) (toLowerStr b)
      · rw [if_pos hd] at h
        exact absurd h (by simp)
      · rw [if_neg hd] at h
        rw [if_neg (by omega : ¬ k + 1 + 1 < damerauLevenshtein (toLowerStr a) (toLowerStr b))]
        exact h

/-- Helper: the mismatch loop only gains successes when maxDist grows. -/
theorem similarLoop_mono (k : Nat) : ∀ ps m, similarLoop k ps m = true →
    similarLoop (k + 1) ps m = true := by
  intro ps
  induction ps with
  | nil => intro m h; exact h
  | cons p rest ih =>
    intro m h
    obtain ⟨a, b⟩ := p
    unfold similarLoop at h ⊢
    by_cases hab : a = b
    · rw [if_pos hab] at h ⊢
      exact ih m h
    · rw [if_neg hab] at h ⊢
      by_cases hwc : wordClose k a b = true
      · rw [if_neg (by simp [hwc])] at h
        rw [if_neg (by simp [wordClose_mono k a b hwc])]
        by_cases hm : 1 < m + 1
        · rw [if_pos hm] at h
          exact absurd h (by simp)
        · rw [if_neg hm] at h ⊢
          exact ih (m + 1) h
      · have hfalse : wordClose k a b = false := Bool.eq_false_iff.mpr hwc
        rw [if_pos (by simp [hfalse])] at h
        exact absurd h (by simp)

/-- Helper: the single-chunk-typo detector only gains pairs when maxDist
grows. -/
theorem hasSimilarCamelWord_mono (k : Nat) (tok name : List Char)
    (h : hasSimilarCamelWord k tok name = true) :
    hasSimilarCamelWord (k + 1) tok name = true := by
  unfold hasSimilarCamelWord at h ⊢
  by_cases h0 : splitCamelWords tok = [] ∨
      (splitCamelWords tok).length ≠ (splitCamelWords name).length
  · rw [if_pos h0] at h
    exact absurd h (by simp)
  · rw [if_neg h0] at h ⊢
    exact similarLoop_mono k _ _ h

/-- Helper: the length window only widens when maxDist grows. -/
theorem withinLenWindow_mono (k : Nat) (tok name : List Char)
    (h : withinLenWindow k tok name) : withinLenWindow (k + 1) tok name := by
  unfold withinLenWindow at h ⊢
  rcases h with h1 | h1
  · exact Or.inl (by omega)
  · exact Or.inr h1

/-- Helper: the edit-distance branch only gains matches when maxDist
grows. -/
theorem distanceBranch_mono (k : Nat) (tok name : List Char)
    (h : distanceBranch k tok name = true) : distanceBranch (k + 1) tok name = true := by
  unfold distanceBranch at h ⊢
  by_cases hc : withinLenWindow k tok name
  · rw [if_pos hc] at h
    rw [if_pos (withinLenWindow_mono k tok name hc)]
    simp only [Bool.and_eq_true, decide_eq_true_eq] at h ⊢
    exact ⟨⟨h.1.1, by omega⟩, h.2⟩
  · rw [if_neg hc] at h
    exact absurd h (by simp)

/-- Helper: the small-chunk branch only gains matches when maxDist grows
(its content ignores maxDist; only the window depends on it). -/
theorem smallChunkBranch_mono (k : Nat) (tok name : List Char)
    (h : smallChunkBranch k tok name = true) : smallChunkBranch (k + 1) tok name = true := by
  unfold smallChunkBranch at h ⊢
  by_cases hc : withinLenWindow k tok name
  · rw [if_pos hc] at h
    rw [if_pos (withinLenWindow_mono k tok name hc)]
    exact h
  · rw [if_neg hc] at h
    exact absurd h (by simp)

/-- Helper: the whole cascade only gains matches when maxDist grows, the
chunk bounds held fixed. -/
theorem cascadeMatch_mono (cfg cfg2 : Config) (tok name : List Char)
    (hmd : cfg2.maxDist = cfg.maxDist + 1)
    (hrep : cfg2.maxCamelChunkReplace = cfg.maxCamelChunkReplace)
    (hins : cfg2.maxCamelChunkInsert = cfg.maxCamelChunkInsert)
    (h : cascadeMatch cfg tok name = true) :
    cascadeMatch cfg2 tok name = true := by
  unfold cascadeMatch at h ⊢
  rw [hmd, hrep, hins]
  simp only [Bool.or_eq_true] at h ⊢
  rcases h with ((((((h | h) | h) | h) | h) | h) | h)
  · exact Or.inl (Or.inl (Or.inl (Or.inl (Or.inl (Or.inl (distanceBranch_mono _ _ _ h))))))
  · exact Or.inl (Or.inl (Or.inl (Or.inl (Or.inl (Or.inr h)))))
  · exact Or.inl (Or.inl (Or.inl (Or.inl (Or.inr h))))
  · exact Or.inl (Or.inl (Or.inl (Or.inr (hasSimilarCamelWord_mono _ _ _ h))))
  · exact Or.inl (Or.inl (Or.inr h))
  · exact Or.inl (Or.inr h)
  · exact Or.inr (smallChunkBranch_mono _ _ _ h)

/-- Helper: the narrative filters read only the word lists and the
plain-word switch of the configuration. -/
theorem suppressedByFilters_congr (cfg cfg2 : Config)
    (hlw : cfg2.allowedLeadingWords = cfg.allowedLeadingWords)
    (hap : cfg2.allowedPrefixes = cfg.allowedPrefixes)
    (hsp : cfg2.skipPlainWordCamel = cfg.skipPlainWordCamel)
    (tok line name : List Char) (kind : SymbolKind) :
    suppressedByFilters cfg2 tok line name kind = suppressedByFilters cfg tok line name kind := by
  unfold suppressedByFilters isAllowedLeadingWord matchesAllowedPrefixVariant
  rw [hlw, hap, hsp]

/-- Helper: checkSymbol keeps emitting a diagnostic when maxDist grows by
one and every other configuration field is unchanged. -/
theorem checkSymbol_isSome_mono (cfg cfg2 : Config) (doc : Option (List Char))
    (name : List Char) (exported : Bool) (kind : SymbolKind) (declPos : Nat)
    (hmd : cfg2.maxDist = cfg.maxDist + 1)
    (hie : cfg2.includeExported = cfg.includeExported)
    (hiu : cfg2.includeUnexported = cfg.includeUnexported)
    (hlw : cfg2.allowedLeadingWords = cfg.allowedLeadingWords)
    (hap : cfg2.allowedPrefixes = cfg.allowedPrefixes)
    (hsp : cfg2.skipPlainWordCamel = cfg.skipPlainWordCamel)
    (hrep : cfg2.maxCamelChunkReplace = cfg.maxCamelChunkReplace)
    (hins : cfg2.maxCamelChunkInsert = cfg.maxCamelChunkInsert)
    (h : (checkSymbol cfg doc name exported kind declPos).isSome = true) :
    (checkSymbol cfg2 doc name exported kind declPos).isSome = true := by
  unfold checkSymbol at h ⊢
  by_cases hn : name = []
  · rw [if_pos hn] at h
    exact absurd h (by simp)
  · rw [if_neg hn] at h ⊢
    cases doc with
    | none => exact absurd h (by simp)
    | some raw =>
      simp only [] at h ⊢
      rw [hie, hiu]
      by_cases h1 : (exported && !cfg.includeExported) = true
      · rw [if_pos h1] at h
        exact absurd h (by simp)
      · rw [if_neg h1] at h ⊢
        by_cases h2 : (!exported && !cfg.includeUnexported) = true
        · rw [if_pos h2] at h
          exact absurd h (by simp)
        · rw [if_neg h2] at h ⊢
          cases hfi : firstIdentifierLike raw with
          | none =>
            rw [hfi] at h
            exact absurd h (by simp)
          | some v =>
            obtain ⟨t, s, l⟩ := v
            rw [hfi] at h
            simp only [] at h ⊢
            by_cases hlen : t.length < minDocTokenLen
            · rw [if_pos hlen] at h
              exact absurd h (by simp)
            · rw [if_neg hlen] at h ⊢
              rw [suppressedByFilters_congr cfg cfg2 hlw hap hsp]
              by_cases hsup : suppressedByFilters cfg t l name kind = true
              · rw [if_pos hsup] at h
                exact absurd h (by simp)
              · rw [if_neg hsup] at h ⊢
                by_cases hcm : cascadeMatch cfg t name = true
                · rw [if_pos (cascadeMatch_mono cfg cfg2 t name hmd hrep hins hcm)]
                  simp
                · rw [if_neg hcm] at h
                  exact absurd h (by simp)

/-- C6: For every record and configuration, if the engine emits a
diagnostic at max_dist = k it also emits one at max_dist = k + 1, all other
configuration fields unchanged. -/
theorem C6_monotone_in_max_dist (cfg : Config) (rec : DeclarationRecord)
    (h : (analyzeRecord cfg rec).isSome = true) :
    (analyzeRecord { cfg with maxDist := cfg.maxDist + 1 } rec).isSome = true := by
  unfold analyzeRecord at h ⊢
  by_cases hg : (rec.generated && !cfg.includeGenerated) = true
  · rw [if_pos hg] at h
    exact absurd h (by simp)
  · rw [if_neg hg] at h
    rw [if_neg (show ¬(rec.generated &&
        !({ cfg with maxDist := cfg.maxDist + 1 } : Config).includeGenerated) = true from hg)]
    cases hk : rec.kind with
    | funcDecl =>
      rw [hk] at h
      simp only [] at h ⊢
      exact checkSymbol_isSome_mono cfg _ _ _ _ _ _ rfl rfl rfl rfl rfl rfl rfl rfl h
    | typeDecl =>
      rw [hk] at h
      simp only [] at h ⊢
      by_cases hT : cfg.includeTypes = true
      · rw [if_pos hT] at h
        rw [if_pos (show ({ cfg with maxDist := cfg.maxDist + 1 } : Config).includeTypes =
          true from hT)]
        exact checkSymbol_isSome_mono cfg _ _ _ _ _ _ rfl rfl rfl rfl rfl rfl rfl rfl h
      · rw [if_neg hT] at h
        exact absurd h (by simp)
    | ifaceMethodDecl =>
      rw [hk] at h
      simp only [] at h ⊢
      by_cases hT : cfg.includeInterfaceMethods = true
      · rw [if_pos hT] at h
        rw [if_pos (show ({ cfg with maxDist := cfg.maxDist + 1 } : Config).includeInterfaceMethods =
          true from hT)]
        exact checkSymbol_isSome_mono cfg _ _ _ _ _ _ rfl rfl rfl rfl rfl rfl rfl rfl h
      · rw [if_neg hT] at h
        exact absurd h (by simp)

/-- Witness for C6 at a concrete record that triggers at the baseline
distance. -/
theorem C6_monotone_witness :
    (analyzeRecord { cfgBase with maxDist := cfgBase.maxDist + 1 }
      { name := "abC".data, exported := false, kind := DeclKind.funcDecl,
        doc := some "// abc xyz".data, generated := false, pos := 3 }).isSome = true :=
  C6_monotone_in_max_dist cfgBase _ (by decide)

/-- Helper: dropping the same count preserves the leading-part relation. -/
theorem prefix_drop_both {l1 l2 : List Char} (n : Nat) (h : l1 <+: l2) :
    l1.drop n <+: l2.drop n := by
  obtain ⟨t, rfl⟩ := h
  rw [List.drop_append_eq_append_drop]
  exact List.prefix_append _ _

/-- Helper: a trailing part is recovered by dropping the length
difference. -/
theorem suffix_drop_eq {l' l : List Char} (h : l' <:+ l) :
    l.drop (l.length - l'.length) = l' := by
  obtain ⟨pre, rfl⟩ := h
  have hlen : (pre ++ l').length - l'.length = pre.length := by
    simp [List.length_append]
  rw [hlen, List.drop_left]

/-- Helper: dropWhile is a plain drop of the consumed count. -/
theorem dropWhile_as_drop (p : Char → Bool) (l : List Char) :
    l.drop (l.length - (l.dropWhile p).length) = l.dropWhile p :=
  suffix_drop_eq (List.dropWhile_suffix p)

/-- Helper: pointer stripping is a plain drop of the returned count. -/
theorem trimPointerPrefixes_as_drop (s : List Char) :
    s.drop (trimPointerPrefixes s).2 = (trimPointerPrefixes s).1 :=
  dropWhile_as_drop _ s

/-- Helper: the identifier run leads its argument. -/
theorem leadingIdentRun_prefix_arg (t : List Char) : (leadingIdentRun t).1 <+: t :=
  List.takeWhile_prefix _

/-- Helper: the trimmed word sits at its returned left offset inside the
original word. -/
theorem trimWord_located (w : List Char) : (trimWord w).1 <+: w.drop (trimWord w).2 := by
  unfold trimWord
  simp only []
  rw [dropWhile_as_drop isWordBoundary w]
  exact List.rdropWhile_prefix _ _

/-- Helper: the trimmed line sits at its returned left offset inside the
original line. -/
theorem trimDocLine_located (line : List Char) :
    (trimDocLine line).1 <+: line.drop (trimDocLine line).2 := by
  unfold trimDocLine
  simp only []
  have h3 : (((line.dropWhile isTrim1).dropWhile isTrim2).dropWhile isDocSpace) <:+ line := by
    refine List.IsSuffix.trans (List.dropWhile_suffix _) ?_
    exact List.IsSuffix.trans (List.dropWhile_suffix _) (List.dropWhile_suffix _)
  rw [suffix_drop_eq h3]
  exact List.rdropWhile_prefix _ _

/-- Helper: the part list always starts at the base offset. -/
theorem splitOnDotFrom_head (w : List Char) (s : Nat) :
    ∃ p ps, splitOnDotFrom w s = (p, s) :: ps := by
  cases w with
  | nil => exact ⟨[], [], rfl⟩
  | cons c rest =>
    unfold splitOnDotFrom
    by_cases hc : c = '.'
    · rw [if_pos hc]
      exact ⟨[], _, rfl⟩
    · rw [if_neg hc]
      obtain ⟨p, ps, hrec⟩ := splitOnDotFrom_head rest (s + 1)
      rw [hrec]
      exact ⟨c :: p, ps, rfl⟩

/-- Helper: every part of the dot split sits at its recorded offset inside
the word. -/
theorem splitOnDotFrom_located (w : List Char) : ∀ s p off,
    (p, off) ∈ splitOnDotFrom w s → s ≤ off ∧ p <+: w.drop (off - s) := by
  induction w with
  | nil =>
    intro s p off hmem
    simp only [splitOnDotFrom, List.mem_singleton, Prod.mk.injEq] at hmem
    obtain ⟨hp, ho⟩ := hmem
    subst hp
    subst ho
    exact ⟨Nat.le_refl _, by simp⟩
  | cons c rest ih =>
    intro s p off hmem
    unfold splitOnDotFrom at hmem
    by_cases hc : c = '.'
    · rw [if_pos hc] at hmem
      rcases List.mem_cons.mp hmem with h | h
      · rw [Prod.mk.injEq] at h
        obtain ⟨hp, ho⟩ := h
        subst hp
        subst ho
        exact ⟨Nat.le_refl _, by simp⟩
      · obtain ⟨h1, h2⟩ := ih (s + 1) p off h
        refine ⟨by omega, ?_⟩
        have hos : off - s = (off - (s + 1)) + 1 := by omega
        rw [hos, List.drop_succ_cons]
        exact h2
    · rw [if_neg hc] at hmem
      obtain ⟨p0, ps0, hrec⟩ := splitOnDotFrom_head rest (s + 1)
      rw [hrec] at hmem
      rcases List.mem_cons.mp hmem with h | h
      · rw [Prod.mk.injEq] at h
        obtain ⟨hp, ho⟩ := h
        refine ⟨Nat.le_of_eq ho.symm, ?_⟩
        rw [hp, ho, Nat.sub_self, List.drop_zero]
        have hp0 : (p0, s + 1) ∈ splitOnDotFrom rest (s + 1) := by
          rw [hrec]
          exact List.mem_cons_self _ _
        obtain ⟨_, h2⟩ := ih (s + 1) p0 (s + 1) hp0
        simp only [Nat.sub_self, List.drop_zero] at h2
        exact List.cons_prefix_cons.mpr ⟨rfl, h2⟩
      · have hmem2 : (p, off) ∈ splitOnDotFrom rest (s + 1) := by
          rw [hrec]
          exact List.mem_cons_of_mem _ h
        obtain ⟨h1, h2⟩ := ih (s + 1) p off hmem2
        refine ⟨by omega, ?_⟩
        have hos : off - s = (off - (s + 1)) + 1 := by omega
        rw [hos, List.drop_succ_cons]
        exact h2

/-- Helper: a successful right-to-left search names some part of the list,
with the offset shifted by the pointer strip. -/
theorem findIdentRev_inv : ∀ (ps : List (List Char × Nat)) (id : List Char) (rel : Nat),
    findIdentRev ps = some (id, rel) → ∃ p off, (p, off) ∈ ps ∧
      rel = off + (trimPointerPrefixes p).2 ∧
      id = (leadingIdentRun (trimPointerPrefixes p).1).1 := by
  intro ps
  induction ps with
  | nil => intro id rel h; exact absurd h (by simp [findIdentRev])
  | cons q rest ih =>
    intro id rel h
    obtain ⟨p, off⟩ := q
    unfold findIdentRev at h
    by_cases hid : (leadingIdentRun (trimPointerPrefixes p).1).1 = []
    · rw [if_pos hid] at h
      obtain ⟨p2, off2, hmem, hrel, hident⟩ := ih id rel h
      exact ⟨p2, off2, List.mem_cons_of_mem _ hmem, hrel, hident⟩
    · rw [if_neg hid] at h
      injection h with h
      rw [Prod.mk.injEq] at h
      obtain ⟨h1, h2⟩ := h
      exact ⟨p, off, List.mem_cons_self _ _, h2.symm, h1.symm⟩

/-- Helper: the extracted identifier component sits at its returned offset
inside the word. -/
theorem extractIdentifierToken_located (w : List Char) (id : List Char) (rel : Nat)
    (h : extractIdentifierToken w = some (id, rel)) : id <+: w.drop rel := by
  unfold extractIdentifierToken at h
  by_cases hw : w = []
  · rw [if_pos hw] at h
    exact absurd h (by simp)
  · rw [if_neg hw] at h
    simp only [] at h
    have hfall : ∀ hq : (if (leadingIdentRun (trimPointerPrefixes w).1).1 = [] then none
        else some ((leadingIdentRun (trimPointerPrefixes w).1).1,
          (trimPointerPrefixes w).2)) = some (id, rel), id <+: w.drop rel := by
      intro hq
      by_cases hid : (leadingIdentRun (trimPointerPrefixes w).1).1 = []
      · rw [if_pos hid] at hq
        exact absurd hq (by simp)
      · rw [if_neg hid] at hq
        injection hq with hq
        rw [Prod.mk.injEq] at hq
        obtain ⟨h1, h2⟩ := hq
        rw [← h1, ← h2, trimPointerPrefixes_as_drop w]
        exact leadingIdentRun_prefix_arg _
    by_cases hdot : w.contains '.' = true
    · rw [if_pos hdot] at h
      cases hfind : findIdentRev (splitOnDotFrom w 0).reverse with
      | none =>
        rw [hfind] at h
        exact hfall h
      | some v =>
        rw [hfind] at h
        injection h with h
        rw [h] at hfind
        obtain ⟨p, off, hmem, hrel, hident⟩ := findIdentRev_inv _ _ _ hfind
        have hmem2 : (p, off) ∈ splitOnDotFrom w 0 := List.mem_reverse.mp hmem
        obtain ⟨_, hpre⟩ := splitOnDotFrom_located w 0 p off hmem2
        simp only [Nat.sub_zero] at hpre
        rw [hrel, hident]
        have step1 : (leadingIdentRun (trimPointerPrefixes p).1).1 <+:
            p.drop (trimPointerPrefixes p).2 := by
          rw [trimPointerPrefixes_as_drop p]
          exact leadingIdentRun_prefix_arg _
        have step2 : p.drop (trimPointerPrefixes p).2 <+:
            w.drop (off + (trimPointerPrefixes p).2) := by
          have hdd := prefix_drop_both (trimPointerPrefixes p).2 hpre
          rw [List.drop_drop] at hdd
          exact hdd
        exact step1.trans step2
    · rw [if_neg hdot] at h
      exact hfall h

/-- Helper: the token the word loop returns sits at its returned offset
inside the remaining line, past the running position. -/
theorem identFromWords_located : ∀ fuel line pos id q,
    identFromWords fuel line pos = some (id, q) →
    pos ≤ q ∧ id <+: line.drop (q - pos) := by
  intro fuel
  induction fuel with
  | zero => intro line pos id q h; exact absurd h (by simp [identFromWords])
  | succ fuel ih =>
    intro line pos id q h
    unfold identFromWords at h
    cases line with
    | nil => exact absurd h (by simp)
    | cons c rest =>
      simp only [] at h
      by_cases hsp : isDocSpace c = true
      · rw [if_pos hsp] at h
        obtain ⟨h1, h2⟩ := ih rest (pos + 1) id q h
        refine ⟨by omega, ?_⟩
        have hos : q - pos = (q - (pos + 1)) + 1 := by omega
        rw [hos, List.drop_succ_cons]
        exact h2
      · rw [if_neg hsp] at h
        have hrec : identFromWords fuel ((c :: rest).dropWhile (fun x => !isDocSpace x))
            (pos + ((c :: rest).takeWhile (fun x => !isDocSpace x)).length) = some (id, q) →
            pos ≤ q ∧ id <+: (c :: rest).drop (q - pos) := by
          intro hq
          obtain ⟨h1, h2⟩ := ih _ _ id q hq
          refine ⟨by omega, ?_⟩
          rw [← List.takeWhile_append_dropWhile (p := fun x => !isDocSpace x) (l := c :: rest),
            List.drop_append_eq_append_drop]
          rw [List.drop_eq_nil_of_le (by omega), List.nil_append]
          have hos : q - pos - ((c :: rest).takeWhile (fun x => !isDocSpace x)).length =
              q - (pos + ((c :: rest).takeWhile (fun x => !isDocSpace x)).length) := by omega
          rw [hos]
          exact h2
        by_cases hT : (trimWord ((c :: rest).takeWhile (fun x => !isDocSpace x))).1 = []
        · rw [if_pos hT] at h
          exact hrec h
        · rw [if_neg hT] at h
          by_cases hlab : isSkippableLabel (toLowerStr (trimColonSuffix
              (trimWord ((c :: rest).takeWhile (fun x => !isDocSpace x))).1)) = true
          · rw [if_pos hlab] at h
            exact hrec h
          · rw [if_neg hlab] at h
            cases hext : extractIdentifierToken
                (trimWord ((c :: rest).takeWhile (fun x => !isDocSpace x))).1 with
            | none =>
              rw [hext] at h
              exact absurd h (by simp)
            | some v =>
              obtain ⟨id0, rel⟩ := v
              rw [hext] at h
              injection h with h
              rw [Prod.mk.injEq] at h
              obtain ⟨hid, hq⟩ := h
              refine ⟨by omega, ?_⟩
              have e1 := extractIdentifierToken_located _ _ _ hext
              have e2 := trimWord_located ((c :: rest).takeWhile (fun x => !isDocSpace x))
              have e3 := prefix_drop_both rel e2
              rw [List.drop_drop] at e3
              have e4 : ((c :: rest).takeWhile (fun x => !isDocSpace x)) <+: (c :: rest) :=
                List.takeWhile_prefix _
              have e5 := prefix_drop_both
                ((trimWord ((c :: rest).takeWhile (fun x => !isDocSpace x))).2 + rel) e4
              have hos : q - pos =
                  (trimWord ((c :: rest).takeWhile (fun x => !isDocSpace x))).2 + rel := by
                omega
              rw [hos, ← hid]
              exact (e1.trans e3).trans e5

/-- Helper: the token sits at its returned offset inside the line. -/
theorem identifierFromLine_located (line : List Char) (id : List Char) (r : Nat)
    (h : identifierFromLine line = some (id, r)) : id <+: line.drop r := by
  obtain ⟨h1, h2⟩ := identFromWords_located (line.length + 1) line 0 id r h
  simpa using h2

/-- Helper: the line the loop returns sits at its returned offset inside
the remaining text, past the running offset. -/
theorem firstDocLineLoop_located : ∀ fuel text curOff line off,
    firstDocLineLoop fuel text curOff = some (line, off) →
    curOff ≤ off ∧ line <+: text.drop (off - curOff) := by
  intro fuel
  induction fuel with
  | zero => intro text curOff line off h; exact absurd h (by simp [firstDocLineLoop])
  | succ fuel ih =>
    intro text curOff line off h
    unfold firstDocLineLoop at h
    by_cases hnil : text = []
    · rw [if_pos hnil] at h
      exact absurd h (by simp)
    · rw [if_neg hnil] at h
      simp only [] at h
      by_cases htr : (trimDocLine (text.takeWhile (fun c => c ≠ '\n'))).1 = []
      · rw [if_pos htr] at h
        obtain ⟨h1, h2⟩ := ih _ _ line off h
        refine ⟨by omega, ?_⟩
        rw [List.drop_drop] at h2
        have hos : (if (text.takeWhile (fun c => c ≠ '\n')).length < text.length then
            (text.takeWhile (fun c => c ≠ '\n')).length + 1
          else (text.takeWhile (fun c => c ≠ '\n')).length) +
            (off - (curOff + (if (text.takeWhile (fun c => c ≠ '\n')).length < text.length then
              (text.takeWhile (fun c => c ≠ '\n')).length + 1
            else (text.takeWhile (fun c => c ≠ '\n')).length))) = off - curOff := by
          omega
        rw [hos] at h2
        exact h2
      · rw [if_neg htr] at h
        injection h with h
        rw [Prod.mk.injEq] at h
        obtain ⟨hline, hoff⟩ := h
        refine ⟨by omega, ?_⟩
        have e1 := trimDocLine_located (text.takeWhile (fun c => c ≠ '\n'))
        have e2 : (text.takeWhile (fun c => c ≠ '\n')) <+: text := List.takeWhile_prefix _
        have e3 := prefix_drop_both (trimDocLine (text.takeWhile (fun c => c ≠ '\n'))).2 e2
        have hos : off - curOff = (trimDocLine (text.takeWhile (fun c => c ≠ '\n'))).2 := by
          omega
        rw [hos, ← hline]
        exact e1.trans e3

/-- Helper: removing the block closer leaves a leading part. -/
theorem cutBlockCloser_leads (l : List Char) : cutBlockCloser l <+: l := by
  unfold cutBlockCloser
  split
  · rename_i r heq
    refine ⟨['*', '/'], ?_⟩
    rw [← List.reverse_reverse l, heq]
    simp
  · exact List.prefix_refl l

/-- Helper: the first doc line sits at its returned byte offset inside the
raw block. -/
theorem firstDocLine_located (raw : List Char) (line : List Char) (off : Nat)
    (h : firstDocLine raw = some (line, off)) : line <+: raw.drop off := by
  unfold firstDocLine at h
  split at h
  · rename_i rest
    obtain ⟨h1, h2⟩ := firstDocLineLoop_located _ _ _ _ _ h
    rw [show off = (off - 2) + 1 + 1 from by omega, List.drop_succ_cons, List.drop_succ_cons]
    exact h2
  · rename_i rest
    obtain ⟨h1, h2⟩ := firstDocLineLoop_located _ _ _ _ _ h
    have e3 := prefix_drop_both (off - 2) (cutBlockCloser_leads rest)
    rw [show off = (off - 2) + 1 + 1 from by omega, List.drop_succ_cons, List.drop_succ_cons]
    exact h2.trans e3
  · exact absurd h (by simp)
  · obtain ⟨h1, h2⟩ := firstDocLineLoop_located _ _ _ _ _ h
    simpa using h2

/-- Helper: the extracted token sits at its returned byte offset inside
the raw block. -/
theorem firstIdentifierLike_located (raw tok line : List Char) (start : Nat)
    (h : firstIdentifierLike raw = some (tok, start, line)) : tok <+: raw.drop start := by
  unfold firstIdentifierLike at h
  cases hfd : firstDocLine raw with
  | none =>
    rw [hfd] at h
    exact absurd h (by simp)
  | some v =>
    obtain ⟨l0, off⟩ := v
    rw [hfd] at h
    simp only [] at h
    cases hil : identifierFromLine l0 with
    | none =>
      rw [hil] at h
      exact absurd h (by simp)
    | some w =>
      obtain ⟨id, rel⟩ := w
      rw [hil] at h
      injection h with h
      rw [Prod.mk.injEq] at h
      obtain ⟨hid, hrest⟩ := h
      rw [Prod.mk.injEq] at hrest
      obtain ⟨hstart, hline⟩ := hrest
      have e1 := identifierFromLine_located l0 id rel hil
      have e2 := firstDocLine_located raw l0 off hfd
      have e3 := prefix_drop_both rel e2
      rw [List.drop_drop] at e3
      rw [← hid, ← hstart]
      exact e1.trans e3

/-- Helper: taking the length of a leading part recovers it. -/
theorem prefix_take_eq {l1 l2 : List Char} (h : l1 <+: l2) : l2.take l1.length = l1 := by
  obtain ⟨t, rfl⟩ := h
  exact List.take_left _ _

/-- Helper: inversion of checkSymbol: any emitted diagnostic carries the
exact message and the replacement built from the extracted token range and
the symbol name. -/
theorem checkSymbol_some_inv (cfg : Config) (doc : Option (List Char)) (name : List Char)
    (exported : Bool) (kind : SymbolKind) (declPos : Nat) (d : Diagnostic)
    (h : checkSymbol cfg doc name exported kind declPos = some d) :
    ∃ raw tok start line, doc = some raw ∧
      firstIdentifierLike raw = some (tok, start, line) ∧ minDocTokenLen ≤ tok.length ∧
      d = { pos := declPos, message := diagnosticMessage tok name,
            fix := some { start := start, stop := start + tok.length, text := name } } := by
  unfold checkSymbol at h
  by_cases hn : name = []
  · rw [if_pos hn] at h
    exact absurd h (by simp)
  · rw [if_neg hn] at h
    cases doc with
    | none => exact absurd h (by simp)
    | some raw =>
      simp only [] at h
      by_cases h1 : (exported && !cfg.includeExported) = true
      · rw [if_pos h1] at h
        exact absurd h (by simp)
      · rw [if_neg h1] at h
        by_cases h2 : (!exported && !cfg.includeUnexported) = true
        · rw [if_pos h2] at h
          exact absurd h (by simp)
        · rw [if_neg h2] at h
          cases hfi : firstIdentifierLike raw with
          | none =>
            rw [hfi] at h
            exact absurd h (by simp)
          | some v =>
            obtain ⟨t, s, l⟩ := v
            rw [hfi] at h
            simp only [] at h
            by_cases hlen : t.length < minDocTokenLen
            · rw [if_pos hlen] at h
              exact absurd h (by simp)
            · rw [if_neg hlen] at h
              by_cases hsup : suppressedByFilters cfg t l name kind = true
              · rw [if_pos hsup] at h
                exact absurd h (by simp)
              · rw [if_neg hsup] at h
                by_cases hcm : cascadeMatch cfg t name = true
                · rw [if_pos hcm] at h
                  have hlen3 : minDocTokenLen ≤ t.length := by omega
                  have hpos : 0 < t.length := by
                    have : (3 : Nat) = minDocTokenLen := rfl
                    omega
                  rw [if_pos (by omega : s < s + t.length)] at h
                  injection h with h
                  exact ⟨raw, t, s, l, rfl, hfi, hlen3, h.symm⟩
                · rw [if_neg hcm] at h
                  exact absurd h (by simp)

/-- Helper: inversion of the record dispatcher down to checkSymbol. -/
theorem analyzeRecord_some_inv (cfg : Config) (rec : DeclarationRecord) (d : Diagnostic)
    (h : analyzeRecord cfg rec = some d) :
    checkSymbol cfg rec.doc rec.name rec.exported (symbolKindOf rec.kind) rec.pos = some d := by
  unfold analyzeRecord at h
  by_cases hg : (rec.generated && !cfg.includeGenerated) = true
  · rw [if_pos hg] at h
    exact absurd h (by simp)
  · rw [if_neg hg] at h
    cases hk : rec.kind with
    | funcDecl =>
      rw [hk] at h
      exact h
    | typeDecl =>
      rw [hk] at h
      by_cases hT : cfg.includeTypes = true
      · rw [if_pos hT] at h
        exact h
      · rw [if_neg hT] at h
        exact absurd h (by simp)
    | ifaceMethodDecl =>
      rw [hk] at h
      by_cases hT : cfg.includeInterfaceMethods = true
      · rw [if_pos hT] at h
        exact h
      · rw [if_neg hT] at h
        exact absurd h (by simp)

/-- C7: For every emitted diagnostic that carries a suggested replacement,
the replacement range is exactly the extracted token byte range: it starts
at the token offset in the block, ends at start plus the token length, and
the block bytes over that range spell the token; the replacement text is
the symbol name verbatim; and the message is exactly the documented
format. -/
theorem C7_replacement_exact (cfg : Config) (rec : DeclarationRecord) (d : Diagnostic)
    (f : SuggestedReplacement) (raw tok line : List Char) (start : Nat)
    (hdoc : rec.doc = some raw)
    (hfi : firstIdentifierLike raw = some (tok, start, line))
    (hd : analyzeRecord cfg rec = some d)
    (hf : d.fix = some f) :
    f.start = start ∧ f.stop = start + tok.length ∧ f.text = rec.name ∧
    (raw.drop start).take tok.length = tok ∧
    d.message = diagnosticMessage tok rec.name := by
  have hcs := analyzeRecord_some_inv cfg rec d hd
  obtain ⟨raw2, tok2, start2, line2, hdoc2, hfi2, hlen2, hdstruct⟩ :=
    checkSymbol_some_inv cfg rec.doc rec.name rec.exported (symbolKindOf rec.kind) rec.pos d hcs
  rw [hdoc] at hdoc2
  injection hdoc2 with hdoc2
  subst hdoc2
  rw [hfi] at hfi2
  injection hfi2 with hfi2
  rw [Prod.mk.injEq] at hfi2
  obtain ⟨htok, hfr⟩ := hfi2
  rw [Prod.mk.injEq] at hfr
  obtain ⟨hstart, hline⟩ := hfr
  subst htok
  subst hstart
  subst hline
  subst hdstruct
  simp only [Option.some.injEq] at hf
  subst hf
  refine ⟨rfl, rfl, rfl, ?_, rfl⟩
  exact prefix_take_eq (firstIdentifierLike_located raw tok line start hfi)

/-- Concrete record for the C7 witness. -/
def recC7 : DeclarationRecord :=
  { name := "abC".data, exported := false, kind := DeclKind.funcDecl,
    doc := some "// abc xyz".data, generated := false, pos := 3 }

/-- Replacement the engine emits for recC7. -/
def fixC7 : SuggestedReplacement := { start := 3, stop := 6, text := "abC".data }

/-- Diagnostic the engine emits for recC7. -/
def diagC7 : Diagnostic :=
  { pos := 3, message := diagnosticMessage "abc".data "abC".data, fix := some fixC7 }

/-- Witness for C7 at the concrete record recC7. -/
theorem C7_witness :
    fixC7.start = 3 ∧ fixC7.stop = 3 + "abc".data.length ∧ fixC7.text = recC7.name ∧
    ("// abc xyz".data.drop 3).take "abc".data.length = "abc".data ∧
    diagC7.message = diagnosticMessage "abc".data recC7.name :=
  C7_replacement_exact cfgBase recC7 diagC7 fixC7 "// abc xyz".data "abc".data "abc xyz".data 3
    rfl (by decide) (by decide) rfl
